import Mathlib

/-! # Verification of the OCR visualiser's diff engine and record loading

Shallow embedding of `src/app.py`.  Strings are modelled as `List Char`.
The diff pipeline is CPython's `difflib.SequenceMatcher(None, text1, text2)`
exactly as invoked by `create_highlighted_diff` (so `isjunk = None`, which
makes the junk set `bjunk` empty, while `autojunk = True` stays active and
disqualifies "popular" elements of `b` when `len(b) >= 200`).  The loading
function `load_data` is modelled over already-parsed sources, with the
missing-file cases of the two `try` blocks represented by `Option` inputs
and the uncaught `KeyError` by an explicit outcome constructor. -/

namespace OcrViz

/-- Character of `l` at index `i`.  All reads performed by the embedded code
    are in range, so the default value never matters there. -/
def getC (l : List Char) (i : Nat) : Char := l.getD i 'a'

/-- Python slice `l[m:n]` for `0 ≤ m ≤ n`. -/
def slice (l : List Char) (m n : Nat) : List Char := (l.drop m).take (n - m)

/-- A matching block `(i, j, size)`, difflib's `Match(a, b, size)` triple:
    `a[i:i+size] == b[j:j+size]`. -/
structure Block where
  i : Nat
  j : Nat
  size : Nat
deriving DecidableEq, Repr

/-- Number of occurrences of `c` in `b` (the length of the `b2j` index list
    difflib builds before purging). -/
def occCount (b : List Char) (c : Char) : Nat := (b.filter (fun x => x == c)).length

/-- difflib autojunk: with `len(b) >= 200`, elements occurring more than
    `len(b) // 100 + 1` times are "popular" and are dropped from `b2j`. -/
def isPopular (b : List Char) (c : Char) : Bool :=
  decide (200 ≤ b.length) && decide (b.length / 100 + 1 < occCount b c)

/-- The ascending list of indices of `c` in `b` (difflib's `b2j[c]` before
    the autojunk purge; built in index order, hence sorted). -/
def occIndices (b : List Char) (c : Char) : List Nat :=
  (List.range b.length).filter (fun j => getC b j == c)

/-- difflib's `b2j.get(c, [])` after the autojunk purge (`isjunk` is `None`
    at the call site in `create_highlighted_diff`, so no junk purge). -/
def b2j (b : List Char) (c : Char) : List Nat :=
  if isPopular b c then [] else occIndices b c

/-- One `j` of the inner loop body of `find_longest_match`:
    `k = newj2len[j] = j2len.get(j-1, 0) + 1` and the best-block update
    (strict `k > bestsize`).  `f` is the previous row's `j2len`, `g` the row
    being built.  `j2len.get(-1, 0) = 0` is rendered by the `j = 0` guard. -/
def innerStep (i : Nat) (f g : Nat → Nat) (st : Block) (j : Nat) :
    (Nat → Nat) × Block :=
  let k := (if j = 0 then 0 else f (j - 1)) + 1
  (fun j' => if j' = j then k else g j',
   if st.size < k then ⟨i + 1 - k, j + 1 - k, k⟩ else st)

/-- The inner loop of `find_longest_match` over `b2j.get(a[i], [])`:
    `if j < blo: continue`, `if j >= bhi: break`, else `innerStep`. -/
def innerLoop (i blo bhi : Nat) (f : Nat → Nat) :
    List Nat → (Nat → Nat) → Block → (Nat → Nat) × Block
  | [], g, st => (g, st)
  | j :: js, g, st =>
    if j < blo then innerLoop i blo bhi f js g st
    else if bhi ≤ j then (g, st)
    else
      let p := innerStep i f g st j
      innerLoop i blo bhi f js p.1 p.2

/-- The outer loop of `find_longest_match`: rows `i = r, r+1, ...` (`cnt`
    rows in all), each starting a fresh `newj2len`. -/
def outerLoop (a b : List Char) (blo bhi : Nat) :
    Nat → Nat → (Nat → Nat) → Block → Block
  | _, 0, _, st => st
  | r, cnt + 1, f, st =>
    let p := innerLoop r blo bhi f (b2j b (getC a r)) (fun _ => 0) st
    outerLoop a b blo bhi (r + 1) cnt p.1 p.2

/-- First extension loop of `find_longest_match` (with `bjunk = ∅`):
    `while besti > alo and bestj > blo and a[besti-1] == b[bestj-1]`.
    Each iteration decreases `besti` by one, so running it with fuel
    `besti` is the loop itself (at fuel 0, `besti = 0 ≤ alo` kills the
    guard anyway). -/
def extendLeftAux (a b : List Char) (alo blo : Nat) : Nat → Block → Block
  | 0, st => st
  | fuel + 1, st =>
    if alo < st.i ∧ blo < st.j ∧ getC a (st.i - 1) = getC b (st.j - 1) then
      extendLeftAux a b alo blo fuel ⟨st.i - 1, st.j - 1, st.size + 1⟩
    else st

def extendLeft (a b : List Char) (alo blo : Nat) (st : Block) : Block :=
  extendLeftAux a b alo blo st.i st

/-- Second extension loop (with `bjunk = ∅`):
    `while besti+bestsize < ahi and bestj+bestsize < bhi and
      a[besti+bestsize] == b[bestj+bestsize]`.  Each iteration grows
    `bestsize` by one while `besti+bestsize < ahi`, so fuel
    `ahi - (besti + bestsize)` is exact. -/
def extendRightAux (a b : List Char) (ahi bhi : Nat) : Nat → Block → Block
  | 0, st => st
  | fuel + 1, st =>
    if st.i + st.size < ahi ∧ st.j + st.size < bhi ∧
        getC a (st.i + st.size) = getC b (st.j + st.size) then
      extendRightAux a b ahi bhi fuel ⟨st.i, st.j, st.size + 1⟩
    else st

def extendRight (a b : List Char) (ahi bhi : Nat) (st : Block) : Block :=
  extendRightAux a b ahi bhi (ahi - (st.i + st.size)) st

/-- `SequenceMatcher.find_longest_match(alo, ahi, blo, bhi)` with
    `isjunk = None`: the dynamic-programming scan, then the two non-junk
    extension loops.  The two junk extension loops of the source are
    identity here because `bjunk` is empty when `isjunk is None`. -/
def findLongestMatch (a b : List Char) (alo ahi blo bhi : Nat) : Block :=
  extendRight a b ahi bhi
    (extendLeft a b alo blo
      (outerLoop a b blo bhi alo (ahi - alo) (fun _ => 0) ⟨alo, blo, 0⟩))

/-- The divide-and-conquer of `get_matching_blocks`, rendered as in-order
    recursion.  The source keeps a LIFO queue of pending `(alo, ahi, blo,
    bhi)` rectangles and sorts the collected blocks at the end; since every
    block found in the left rectangle is componentwise below the separating
    match and every block of the right rectangle above it, the sorted result
    is exactly this in-order traversal.  `fuel` bounds the recursion depth;
    `ahi - alo` shrinks at every recursive call, so `fuel = ahi - alo`
    suffices (down a left branch `ahi` drops to `m.i < ahi`, down a right
    branch `alo` rises to `m.i + m.size > alo`). -/
def matchingBlocksAux (a b : List Char) :
    Nat → Nat → Nat → Nat → Nat → List Block
  | 0, _, _, _, _ => []
  | fuel + 1, alo, ahi, blo, bhi =>
    let m := findLongestMatch a b alo ahi blo bhi
    if m.size = 0 then []
    else
      (if alo < m.i ∧ blo < m.j then
        matchingBlocksAux a b fuel alo m.i blo m.j else []) ++
      m ::
      (if m.i + m.size < ahi ∧ m.j + m.size < bhi then
        matchingBlocksAux a b fuel (m.i + m.size) ahi (m.j + m.size) bhi else [])

/-- The adjacent-block merge at the end of `get_matching_blocks`:
    `if i1 + k1 == i2 and j1 + k1 == j2` collapse, else emit `(i1,j1,k1)`
    when `k1` is nonzero and restart from `(i2,j2,k2)`. -/
def collapseBlocks : Nat → Nat → Nat → List Block → List Block
  | i1, j1, k1, [] => if k1 ≠ 0 then [⟨i1, j1, k1⟩] else []
  | i1, j1, k1, bl :: rest =>
    if i1 + k1 = bl.i ∧ j1 + k1 = bl.j then
      collapseBlocks i1 j1 (k1 + bl.size) rest
    else
      (if k1 ≠ 0 then [⟨i1, j1, k1⟩] else []) ++
      collapseBlocks bl.i bl.j bl.size rest

/-- `SequenceMatcher.get_matching_blocks()`: recursive longest-match
    blocks, adjacent runs collapsed, and the `(la, lb, 0)` sentinel. -/
def getMatchingBlocks (a b : List Char) : List Block :=
  collapseBlocks 0 0 0 (matchingBlocksAux a b a.length 0 a.length 0 b.length) ++
  [⟨a.length, b.length, 0⟩]

/-- difflib opcode tags. -/
inductive Tag where
  | equal | replace | delete | insert
deriving DecidableEq, Repr

/-- One opcode `(tag, i1, i2, j1, j2)`. -/
structure Opcode where
  tag : Tag
  i1 : Nat
  i2 : Nat
  j1 : Nat
  j2 : Nat
deriving DecidableEq, Repr

/-- The loop body of `get_opcodes`: the gap before each matching block is
    tagged `replace` / `delete` / `insert`, the block itself `equal`. -/
def opcodesFromBlocks : Nat → Nat → List Block → List Opcode
  | _, _, [] => []
  | i, j, bl :: rest =>
    (if i < bl.i ∧ j < bl.j then [⟨.replace, i, bl.i, j, bl.j⟩]
     else if i < bl.i then [⟨.delete, i, bl.i, j, bl.j⟩]
     else if j < bl.j then [⟨.insert, i, bl.i, j, bl.j⟩]
     else []) ++
    (if bl.size ≠ 0 then
      [⟨.equal, bl.i, bl.i + bl.size, bl.j, bl.j + bl.size⟩] else []) ++
    opcodesFromBlocks (bl.i + bl.size) (bl.j + bl.size) rest

/-- `SequenceMatcher.get_opcodes()`. -/
def getOpcodes (a b : List Char) : List Opcode :=
  opcodesFromBlocks 0 0 (getMatchingBlocks a b)

/-- Per-character effect of `html.escape(s)` (default `quote=True`).  The
    source applies the five `str.replace` calls in sequence starting with
    `&`, which acts per character exactly as this map. -/
def escChar (c : Char) : List Char :=
  if c = '&' then "&amp;".data
  else if c = '<' then "&lt;".data
  else if c = '>' then "&gt;".data
  else if c = '"' then "&quot;".data
  else if c = '\'' then "&#x27;".data
  else [c]

/-- `html.escape` on a character list. -/
def htmlEscape (s : List Char) : List Char := s.foldr (fun c acc => escChar c ++ acc) []

/-- What `create_highlighted_diff` appends to `output_html` for one opcode:
    the escaped `text2[j1:j2]` chunk, wrapped in `<mark>`/`</mark>` for
    `insert` and `replace`, nothing for `delete`. -/
def renderOpcode (text2 : List Char) (op : Opcode) : List Char :=
  let chunk := htmlEscape (slice text2 op.j1 op.j2)
  match op.tag with
  | .equal => chunk
  | .insert => "<mark>".data ++ chunk ++ "</mark>".data
  | .replace => "<mark>".data ++ chunk ++ "</mark>".data
  | .delete => []

/-- `create_highlighted_diff(text1, text2)`: `"".join(output_html)`. -/
def createHighlightedDiff (text1 text2 : List Char) : List Char :=
  ((getOpcodes text1 text2).map (renderOpcode text2)).flatten

/-- Classification of a span of `after`, per the spec's data model. -/
inductive SpanTag where
  | unchanged | changed
deriving DecidableEq, Repr

/-- A DiffSpan: a run of `after` text with its classification. -/
structure DiffSpan where
  tag : SpanTag
  text : List Char
deriving DecidableEq, Repr

/-- The span-level reading of one opcode list over `after`: `equal` opcodes
    give UNCHANGED spans, `insert`/`replace` give CHANGED spans, `delete`
    contributes nothing. -/
def spansOfOps (after : List Char) (ops : List Opcode) : List DiffSpan :=
  ops.foldr
    (fun op acc =>
      match op.tag with
      | .equal => ⟨.unchanged, slice after op.j1 op.j2⟩ :: acc
      | .insert => ⟨.changed, slice after op.j1 op.j2⟩ :: acc
      | .replace => ⟨.changed, slice after op.j1 op.j2⟩ :: acc
      | .delete => acc)
    []

/-- The DiffSpan sequence the engine produces for `(before, after)` — the
    span-level reading of the opcode loop in `create_highlighted_diff`. -/
def diffSpans (before after : List Char) : List DiffSpan :=
  spansOfOps after (getOpcodes before after)

/-- Inverse of `htmlEscape`: rewrite the five entities back to their
    characters, anything else verbatim. -/
def unescapeHtml : List Char → List Char
  | [] => []
  | c :: r =>
    if c = '&' ∧ r.take 4 = "amp;".data then '&' :: unescapeHtml (r.drop 4)
    else if c = '&' ∧ r.take 3 = "lt;".data then '<' :: unescapeHtml (r.drop 3)
    else if c = '&' ∧ r.take 3 = "gt;".data then '>' :: unescapeHtml (r.drop 3)
    else if c = '&' ∧ r.take 5 = "quot;".data then '"' :: unescapeHtml (r.drop 5)
    else if c = '&' ∧ r.take 5 = "#x27;".data then '\'' :: unescapeHtml (r.drop 5)
    else c :: unescapeHtml r
termination_by l => l.length
decreasing_by all_goals (simp [List.length_drop]; try omega)

/-! ## Reference greedy-matching-block algorithm (for claim C2)

Modelled from the spec: "match on the longest common contiguous block
scanning left-to-right, recursing on the remainder before and after each
match".  `refLongestMatch` scans start positions in row-major (left-to-
right) order and keeps the first strictly longer maximal common block, so
it returns the longest block, earliest in `a` and then earliest in `b`. -/

/-- Length of the maximal common block starting at `(i, j)`, clipped to
    `[·, ahi) × [·, bhi)`; the extension advances `i`, so fuel `ahi - i`
    is exact. -/
def commonExtAux (a b : List Char) (ahi bhi : Nat) : Nat → Nat → Nat → Nat
  | 0, _, _ => 0
  | fuel + 1, i, j =>
    if i < ahi ∧ j < bhi ∧ getC a i = getC b j then
      commonExtAux a b ahi bhi fuel (i + 1) (j + 1) + 1
    else 0

def commonExt (a b : List Char) (ahi bhi : Nat) (i j : Nat) : Nat :=
  commonExtAux a b ahi bhi (ahi - i) i j

/-- The row-major list of candidate start positions of the rectangle
    `[alo, ahi) × [blo, bhi)`. -/
def rectPairs (alo ahi blo bhi : Nat) : List (Nat × Nat) :=
  (List.range' alo (ahi - alo)).flatMap
    (fun i => (List.range' blo (bhi - blo)).map (fun j => (i, j)))

/-- One left-to-right scan step over candidate start cells, keeping the
    first strictly longer maximal block (the intermediate `match` merely
    keeps the accumulator in normal form while evaluating). -/
def refScan (a b : List Char) (ahi bhi : Nat) : List (Nat × Nat) → Block → Block
  | [], st => st
  | p :: ps, st =>
    match (if st.size < commonExt a b ahi bhi p.1 p.2 then
        (⟨p.1, p.2, commonExt a b ahi bhi p.1 p.2⟩ : Block) else st) with
    | ⟨x, y, z⟩ => refScan a b ahi bhi ps ⟨x, y, z⟩

/-- Reference longest-match: first strict maximum of `commonExt` in a
    left-to-right scan of the rectangle. -/
def refLongestMatch (a b : List Char) (alo ahi blo bhi : Nat) : Block :=
  refScan a b ahi bhi (rectPairs alo ahi blo bhi) ⟨alo, blo, 0⟩

/-- Reference matching blocks: recurse on the remainder before and after
    each longest match (same divide-and-conquer shape as the engine). -/
def refBlocksAux (a b : List Char) :
    Nat → Nat → Nat → Nat → Nat → List Block
  | 0, _, _, _, _ => []
  | fuel + 1, alo, ahi, blo, bhi =>
    let m := refLongestMatch a b alo ahi blo bhi
    if m.size = 0 then []
    else
      (if alo < m.i ∧ blo < m.j then
        refBlocksAux a b fuel alo m.i blo m.j else []) ++
      m ::
      (if m.i + m.size < ahi ∧ m.j + m.size < bhi then
        refBlocksAux a b fuel (m.i + m.size) ahi (m.j + m.size) bhi else [])

/-- Reference opcodes: the reference blocks (with the terminating sentinel)
    rendered through the same opcode classification. -/
def refOpcodes (a b : List Char) : List Opcode :=
  opcodesFromBlocks 0 0
    (refBlocksAux a b a.length 0 a.length 0 b.length ++ [⟨a.length, b.length, 0⟩])

/-! ## Value function and scan predicates for the DP in `find_longest_match` -/

/-- The chain value the DP computes at cell `(i, j)`: the length of the run
    of matches ending at `(i, j)` that stays inside `[alo, ·] × [blo, bhi)`
    and avoids autojunk-popular elements of `b` (those never enter `b2j`). -/
def chainLen (a b : List Char) (alo blo bhi : Nat) : Nat → Nat → Nat :=
  fun i j =>
    if alo ≤ i ∧ blo ≤ j ∧ j < bhi ∧ j < b.length ∧
        getC a i = getC b j ∧ isPopular b (getC b j) = false then
      (if alo < i ∧ blo < j then chainLen a b alo blo bhi (i - 1) (j - 1) else 0) + 1
    else 0
termination_by i _ => i
decreasing_by omega

/-- Strict row-major (scan) order on cells. -/
def RM (p q : Nat × Nat) : Prop := p.1 < q.1 ∨ (p.1 = q.1 ∧ p.2 < q.2)

/-- Scan invariant: over the cells satisfying `P`, `st` is either the
    untouched initial state (and every `P`-cell has chain value 0), or the
    block recorded at the row-major-first cell of maximal chain value. -/
def InvB (a b : List Char) (alo blo bhi : Nat) (P : Nat → Nat → Prop)
    (st : Block) : Prop :=
  (st = ⟨alo, blo, 0⟩ ∧ ∀ i j, P i j → chainLen a b alo blo bhi i j = 0) ∨
  (∃ i₀ j₀, P i₀ j₀ ∧ 1 ≤ chainLen a b alo blo bhi i₀ j₀ ∧
    st = ⟨i₀ + 1 - chainLen a b alo blo bhi i₀ j₀,
          j₀ + 1 - chainLen a b alo blo bhi i₀ j₀,
          chainLen a b alo blo bhi i₀ j₀⟩ ∧
    (∀ i j, P i j →
      chainLen a b alo blo bhi i j ≤ chainLen a b alo blo bhi i₀ j₀) ∧
    (∀ i j, P i j →
      chainLen a b alo blo bhi i j = chainLen a b alo blo bhi i₀ j₀ →
      ¬ RM (i, j) (i₀, j₀)))

/-- `bl` is a common block of `a` and `b` inside `[alo, ahi) × [blo, bhi)`. -/
def IsMatch (a b : List Char) (alo ahi blo bhi : Nat) (bl : Block) : Prop :=
  alo ≤ bl.i ∧ bl.i + bl.size ≤ ahi ∧ blo ≤ bl.j ∧ bl.j + bl.size ≤ bhi ∧
  ∀ t < bl.size, getC a (bl.i + t) = getC b (bl.j + t)

/-- `m` is the leftmost-longest common block of the rectangle (difflib's
    documented contract for `find_longest_match` without junk): maximal
    size, then smallest start in `a`, then smallest start in `b`; when no
    nonempty block exists, the degenerate `(alo, blo, 0)`. -/
structure IsLL (a b : List Char) (alo ahi blo bhi : Nat) (m : Block) : Prop where
  isMatch : IsMatch a b alo ahi blo bhi m
  zero : m.size = 0 → m.i = alo ∧ m.j = blo
  maxSize : ∀ bl, IsMatch a b alo ahi blo bhi bl → bl.size ≤ m.size
  lex : 1 ≤ m.size → ∀ bl, IsMatch a b alo ahi blo bhi bl → bl.size = m.size →
    m.i < bl.i ∨ (m.i = bl.i ∧ m.j ≤ bl.j)

/-- Cursor chaining of a block list: consecutive blocks are componentwise
    monotone starting from the cursor. -/
def Chained : Nat × Nat → List Block → Prop
  | _, [] => True
  | c, bl :: rest =>
    c.1 ≤ bl.i ∧ c.2 ≤ bl.j ∧ Chained (bl.i + bl.size, bl.j + bl.size) rest

/-- Final cursor after a block list. -/
def endCur : Nat × Nat → List Block → Nat × Nat
  | c, [] => c
  | _, bl :: rest => endCur (bl.i + bl.size, bl.j + bl.size) rest

/-! ## The record store: `load_data` -/

/-- Helper for `pySplitU`: accumulates the current field (reversed). -/
def pySplitAux : List Char → List Char → List (List Char)
  | [], acc => [acc.reverse]
  | c :: r, acc =>
    if c = '_' then acc.reverse :: pySplitAux r []
    else pySplitAux r (c :: acc)

/-- Python's `str.split('_')` (no maxsplit): splits at every underscore
    and keeps empty fields, so `''` gives `['']` and `'_'` gives
    `['', '']`, exactly as `item['image_name'].split('_')` does. -/
def pySplitU (s : String) : List String :=
  (pySplitAux s.data []).map String.mk

/-- A parsed record of the primary JSON source.  A `none` `image_name`
    models a dict lacking the `'image_name'` key (Python would raise
    `KeyError` on `item['image_name']`).  `corr_mod` is the key written by
    `item['corr_mod'] = ...` during loading. -/
structure Item where
  image_name : Option String
  gt : String
  pred : String
  corr : String
  corr_mod : Option String
deriving DecidableEq, Repr

/-- Outcome of `load_data`: the `st.error`-and-`return None` path for a
    missing JSON file, an uncaught exception (`KeyError`), or the merged
    per-language mapping together with the warnings shown. -/
inductive LoadResult where
  | fatal (msg : String)
  | raised (msg : String)
  | ok (warnings : List String) (data : List (String × List Item))
deriving DecidableEq, Repr

/-- The `st.error` message for a missing JSON file. -/
def jsonErrorMsg (json_path : String) : String :=
  "❌ Error: JSON file not found at '" ++ json_path ++ "'."

/-- The `st.warning` message for a missing CSV file. -/
def csvWarnMsg (csv_path : String) : String :=
  "⚠️ Warning: CSV file not found at '" ++ csv_path ++
  "'. 'corr_mod' data will not be available."

/-- The per-record `st.warning` for an identifier with fewer than two
    underscore-separated tokens (`item.get('image_name', 'N/A')`). -/
def skipWarnMsg (it : Item) : String :=
  "Skipping item with unexpected image_name format: " ++ it.image_name.getD "N/A"

/-- `corr_mod_map.get(name, 'N/A')`.  The dict built from the CSV keeps the
    last occurrence of a duplicated key, hence the reversed lookup. -/
def corrModOf (cmap : List (String × String)) (name : String) : String :=
  (cmap.reverse.lookup name).getD "N/A"

/-- `data_by_lang` update: `setdefault`-style append preserving first-seen
    key order, appending the item at the end of its language bucket. -/
def addToLang (d : List (String × List Item)) (l : String) (it : Item) :
    List (String × List Item) :=
  match d with
  | [] => [(l, [it])]
  | (k, v) :: rest =>
    if k = l then (k, v ++ [it]) :: rest else (k, v) :: addToLang rest l it

/-- The `for item in json_data` loop: `KeyError` on a missing
    `'image_name'` aborts the whole load (only `IndexError` is caught);
    fewer than two `_`-tokens warns and skips; otherwise `corr_mod` is
    filled in and the item appended under `image_name.split('_')[1]`. -/
def processItems (cmap : List (String × String)) :
    List Item → List (String × List Item) → List String → LoadResult
  | [], d, ws => .ok ws d
  | it :: rest, d, ws =>
    match it.image_name with
    | none => .raised "KeyError: 'image_name'"
    | some name =>
      let parts := pySplitU name
      if 2 ≤ parts.length then
        processItems cmap rest
          (addToLang d (parts.getD 1 "")
            { it with corr_mod := some (corrModOf cmap name) })
          ws
      else
        processItems cmap rest d (ws ++ [skipWarnMsg it])

/-- `load_data(json_path, csv_path)` over already-parsed sources: `none`
    for a source models its `FileNotFoundError` branch. -/
def load_data (jsonOpt : Option (List Item))
    (csvOpt : Option (List (String × String)))
    (json_path csv_path : String) : LoadResult :=
  match jsonOpt with
  | none => .fatal (jsonErrorMsg json_path)
  | some items =>
    match csvOpt with
    | none => processItems [] items [] [csvWarnMsg csv_path]
    | some pairs => processItems pairs items [] []

/-- The fixed eleven-language mapping of the source. -/
def LANG_CODE_TO_FOLDER : List (String × String) :=
  [("bn", "Bengali"), ("en", "English"), ("gu", "Gujarati"), ("hi", "Hindi"),
   ("kn", "Kannada"), ("ml", "Malayalam"), ("mr", "Marathi"), ("or", "Odia"),
   ("pa", "Punjabi"), ("ta", "Tamil"), ("te", "Telugu")]

/-- All records of a returned mapping, in bucket order. -/
def allItems (d : List (String × List Item)) : List Item :=
  (d.map Prod.snd).flatten

/-- Cells already processed when the scan stands at row `r`, column
    threshold `t`: all earlier rows, and row `r` strictly below `t`. -/
def Prow (alo r t : Nat) (i j : Nat) : Prop :=
  (alo ≤ i ∧ i < r) ∨ (i = r ∧ j < t)

/-- Cells of all rows strictly below `r`. -/
def Pfull (alo r : Nat) (i : Nat) (_ : Nat) : Prop := alo ≤ i ∧ i < r

/-- An item the loader accepts: identifier present with at least two
    underscore tokens. -/
def wfItem (it : Item) : Bool :=
  match it.image_name with
  | none => false
  | some n => decide (2 ≤ (pySplitU n).length)

/-- The transformation the loader applies to an accepted item:
    `item['corr_mod'] = corr_mod_map.get(item['image_name'], 'N/A')`. -/
def convItem (cmap : List (String × String)) (it : Item) : Item :=
  match it.image_name with
  | none => it
  | some n => { it with corr_mod := some (corrModOf cmap n) }

/-- The language bucket an accepted item goes to:
    `item['image_name'].split('_')[1]`. -/
def langOf (it : Item) : String :=
  match it.image_name with
  | none => ""
  | some n => (pySplitU n).getD 1 ""

/-- The keys of the per-language mapping. -/
def keysOf (d : List (String × List Item)) : List String := d.map Prod.fst

/-- The eleven language codes. -/
def langCodes : List String := LANG_CODE_TO_FOLDER.map Prod.fst

/-- Scan invariant of the reference left-to-right start-position scan:
    over the cells satisfying `P`, `st` is either the untouched initial
    state (and every `P`-cell extends to an empty common block), or the
    block recorded at the row-major-first cell of maximal extension. -/
def InvR (a b : List Char) (alo ahi blo bhi : Nat) (P : Nat → Nat → Prop)
    (st : Block) : Prop :=
  (st = ⟨alo, blo, 0⟩ ∧ ∀ i j, P i j → commonExt a b ahi bhi i j = 0) ∨
  (∃ i₀ j₀, P i₀ j₀ ∧ 1 ≤ commonExt a b ahi bhi i₀ j₀ ∧
    st = ⟨i₀, j₀, commonExt a b ahi bhi i₀ j₀⟩ ∧
    (∀ i j, P i j → commonExt a b ahi bhi i j ≤ commonExt a b ahi bhi i₀ j₀) ∧
    (∀ i j, P i j → commonExt a b ahi bhi i j = commonExt a b ahi bhi i₀ j₀ →
      ¬ RM (i, j) (i₀, j₀)))

/-- Two blocks that are not exactly adjacent (the collapse step of
    `get_matching_blocks` merges adjacent ones). -/
def NotAdj (x y : Block) : Prop :=
  ¬ (x.i + x.size = y.i ∧ x.j + x.size = y.j)

/-- Number of characters of `after` carried by CHANGED spans. -/
def changedCount (spans : List DiffSpan) : Nat :=
  ((spans.filter (fun sp => sp.tag == SpanTag.changed)).map
    (fun sp => sp.text.length)).sum

/-- The atomic pieces `create_highlighted_diff` emits for one opcode: the
    escaped chunk for `equal`, the chunk between the two literal highlight
    markers for `insert`/`replace`, nothing for `delete`. -/
def pieces (text2 : List Char) (op : Opcode) : List (List Char) :=
  match op.tag with
  | .equal => [htmlEscape (slice text2 op.j1 op.j2)]
  | .insert => ["<mark>".data, htmlEscape (slice text2 op.j1 op.j2), "</mark>".data]
  | .replace => ["<mark>".data, htmlEscape (slice text2 op.j1 op.j2), "</mark>".data]
  | .delete => []

/-! ## Characterisation of the dynamic-programming scan -/

section Scan

variable (a b : List Char) (alo blo bhi : Nat)

theorem chainLen_eq (i j : Nat) :
    chainLen a b alo blo bhi i j =
      if alo ≤ i ∧ blo ≤ j ∧ j < bhi ∧ j < b.length ∧
          getC a i = getC b j ∧ isPopular b (getC b j) = false then
        (if alo < i ∧ blo < j then chainLen a b alo blo bhi (i - 1) (j - 1) else 0) + 1
      else 0 := by
  rw [chainLen]

theorem chainLen_zero (i j : Nat)
    (h : ¬ (alo ≤ i ∧ blo ≤ j ∧ j < bhi ∧ j < b.length ∧
      getC a i = getC b j ∧ isPopular b (getC b j) = false)) :
    chainLen a b alo blo bhi i j = 0 := by
  rw [chainLen_eq]; simp [h]

theorem chainLen_cond (i j : Nat) (h : 1 ≤ chainLen a b alo blo bhi i j) :
    alo ≤ i ∧ blo ≤ j ∧ j < bhi ∧ j < b.length ∧
      getC a i = getC b j ∧ isPopular b (getC b j) = false := by
  by_contra hc
  rw [chainLen_zero a b alo blo bhi i j hc] at h
  omega

theorem chainLen_le_row (i j : Nat) :
    chainLen a b alo blo bhi i j ≤ i + 1 - alo := by
  induction i using Nat.strong_induction_on generalizing j with
  | _ i ih =>
    rw [chainLen_eq]
    split
    · split
      · next h1 h2 =>
        have := ih (i - 1) (by omega) (j - 1)
        omega
      · next h1 h2 => omega
    · omega

theorem chainLen_le_col (i j : Nat) :
    chainLen a b alo blo bhi i j ≤ j + 1 - blo := by
  induction i using Nat.strong_induction_on generalizing j with
  | _ i ih =>
    rw [chainLen_eq]
    split
    · split
      · next h1 h2 =>
        have := ih (i - 1) (by omega) (j - 1)
        omega
      · next h1 h2 => omega
    · omega

theorem InvB_weaken (P P' : Nat → Nat → Prop) (st : Block)
    (hinv : InvB a b alo blo bhi P st)
    (hsub : ∀ i j, P i j → P' i j)
    (hnew : ∀ i j, P' i j → P i j ∨ chainLen a b alo blo bhi i j = 0) :
    InvB a b alo blo bhi P' st := by
  rcases hinv with ⟨hst, hz⟩ | ⟨i₀, j₀, hP, h1, hst, hmax, hfirst⟩
  · left
    refine ⟨hst, fun i j h => ?_⟩
    rcases hnew i j h with h' | h'
    · exact hz i j h'
    · exact h'
  · right
    refine ⟨i₀, j₀, hsub _ _ hP, h1, hst, fun i j h => ?_, fun i j h hv => ?_⟩
    · rcases hnew i j h with h' | h'
      · exact hmax i j h'
      · omega
    · rcases hnew i j h with h' | h'
      · exact hfirst i j h' hv
      · omega

theorem InvB_congr (P P' : Nat → Nat → Prop) (st : Block)
    (hinv : InvB a b alo blo bhi P st)
    (hiff : ∀ i j, P i j ↔ P' i j) :
    InvB a b alo blo bhi P' st :=
  InvB_weaken a b alo blo bhi P P' st hinv
    (fun i j h => (hiff i j).1 h) (fun i j h => Or.inl ((hiff i j).2 h))

theorem InvB_step (P : Nat → Nat → Prop) (st : Block) (r c : Nat)
    (hinv : InvB a b alo blo bhi P st)
    (hbefore : ∀ p q, P p q → RM (p, q) (r, c)) :
    InvB a b alo blo bhi (fun i j => P i j ∨ (i = r ∧ j = c))
      (if st.size < chainLen a b alo blo bhi r c then
        ⟨r + 1 - chainLen a b alo blo bhi r c,
         c + 1 - chainLen a b alo blo bhi r c,
         chainLen a b alo blo bhi r c⟩
       else st) := by
  set k := chainLen a b alo blo bhi r c with hk
  by_cases hlt : st.size < k
  · rw [if_pos hlt]
    right
    refine ⟨r, c, Or.inr ⟨rfl, rfl⟩, ?_, rfl, ?_, ?_⟩
    · rcases hinv with ⟨hst, hz⟩ | ⟨i₀, j₀, hP, h1, hst, hmax, hfirst⟩
      · have : st.size = 0 := by rw [hst]
        omega
      · have : 1 ≤ st.size := by rw [hst]; exact h1
        omega
    · intro i j hij
      rcases hij with hij | ⟨hi, hj⟩
      · rcases hinv with ⟨hst, hz⟩ | ⟨i₀, j₀, hP, h1, hst, hmax, hfirst⟩
        · rw [hz i j hij]; omega
        · have h2 := hmax i j hij
          have : st.size = chainLen a b alo blo bhi i₀ j₀ := by rw [hst]
          omega
      · subst hi; subst hj; omega
    · intro i j hij hv
      rcases hij with hij | ⟨hi, hj⟩
      · exfalso
        rcases hinv with ⟨hst, hz⟩ | ⟨i₀, j₀, hP, h1, hst, hmax, hfirst⟩
        · have := hz i j hij
          have : st.size = 0 := by rw [hst]
          omega
        · have h2 := hmax i j hij
          have : st.size = chainLen a b alo blo bhi i₀ j₀ := by rw [hst]
          omega
      · subst hi; subst hj
        intro hrm
        rcases hrm with h | ⟨h1, h2⟩ <;> omega
  · rw [if_neg hlt]
    rcases hinv with ⟨hst, hz⟩ | ⟨i₀, j₀, hP, h1, hst, hmax, hfirst⟩
    · left
      refine ⟨hst, fun i j hij => ?_⟩
      rcases hij with hij | ⟨hi, hj⟩
      · exact hz i j hij
      · subst hi; subst hj
        have : st.size = 0 := by rw [hst]
        omega
    · right
      refine ⟨i₀, j₀, Or.inl hP, h1, hst, fun i j hij => ?_, fun i j hij hv => ?_⟩
      · rcases hij with hij | ⟨hi, hj⟩
        · exact hmax i j hij
        · subst hi; subst hj
          have : st.size = chainLen a b alo blo bhi i₀ j₀ := by rw [hst]
          omega
      · rcases hij with hij | ⟨hi, hj⟩
        · exact hfirst i j hij hv
        · subst hi; subst hj
          have hb := hbefore i₀ j₀ hP
          intro hrm
          rcases hrm with h | ⟨h1', h2'⟩ <;> rcases hb with h'' | ⟨h1'', h2''⟩ <;> omega

end Scan

section Scan

variable (a b : List Char) (alo blo bhi : Nat)

theorem chainLen_zero_of_col (r j : Nat)
    (h : ¬ (j < b.length ∧ getC b j = getC a r)) :
    chainLen a b alo blo bhi r j = 0 := by
  apply chainLen_zero
  intro hc
  exact h ⟨hc.2.2.2.1, hc.2.2.2.2.1.symm⟩

theorem innerLoop_spec (r : Nat) (f : Nat → Nat) (halo : alo ≤ r)
    (hpop : isPopular b (getC a r) = false)
    (hf : ∀ j, f j = if alo < r then chainLen a b alo blo bhi (r - 1) j else 0) :
    ∀ js g st t,
    (∀ j, j ∈ js ↔ (t ≤ j ∧ j < b.length ∧ getC b j = getC a r)) →
    List.Pairwise (· < ·) js →
    (∀ j, g j = if j < t then chainLen a b alo blo bhi r j else 0) →
    InvB a b alo blo bhi (Prow alo r t) st →
    (∀ j, (innerLoop r blo bhi f js g st).1 j = chainLen a b alo blo bhi r j) ∧
    InvB a b alo blo bhi (Pfull alo (r + 1)) (innerLoop r blo bhi f js g st).2 := by
  intro js
  induction js with
  | nil =>
    intro g st t hmem hpw hg hinv
    have hz : ∀ j, t ≤ j → chainLen a b alo blo bhi r j = 0 := by
      intro j hj
      by_contra hne
      have h1 : 1 ≤ chainLen a b alo blo bhi r j := by omega
      have hc := chainLen_cond a b alo blo bhi r j h1
      have : j ∈ ([] : List Nat) := (hmem j).2 ⟨hj, hc.2.2.2.1, hc.2.2.2.2.1.symm⟩
      simp at this
    constructor
    · intro j
      rw [innerLoop]
      show g j = _
      rw [hg j]
      by_cases hj : j < t
      · simp [hj]
      · simp [hj, hz j (by omega)]
    · rw [innerLoop]
      apply InvB_weaken a b alo blo bhi (Prow alo r t) _ st hinv
      · intro i j h
        rcases h with ⟨h1, h2⟩ | ⟨h1, h2⟩ <;> exact ⟨by omega, by omega⟩
      · intro i j h
        rcases h with ⟨h1, h2⟩
        by_cases hi : i < r
        · exact Or.inl (Or.inl ⟨h1, hi⟩)
        · have : i = r := by omega
          subst this
          by_cases hj : j < t
          · exact Or.inl (Or.inr ⟨rfl, hj⟩)
          · exact Or.inr (hz j (by omega))
  | cons j js ih =>
    intro g st t hmem hpw hg hinv
    have hhead := (hmem j).1 (List.mem_cons_self j js)
    obtain ⟨hjt, hjlen, hjc⟩ := hhead
    have hpwtail : List.Pairwise (· < ·) js := hpw.of_cons
    have hgt : ∀ j', j ∈ js → j < j' → True := fun _ _ _ => trivial
    have hlt : ∀ j', j' ∈ js → j < j' := fun j' hj' => (List.pairwise_cons.1 hpw).1 j' hj'
    have hmem' : ∀ j', j' ∈ js ↔ (j + 1 ≤ j' ∧ j' < b.length ∧ getC b j' = getC a r) := by
      intro j'
      constructor
      · intro h
        have h2 := (hmem j').1 (List.mem_cons_of_mem j h)
        exact ⟨hlt j' h, h2.2⟩
      · intro ⟨h1, h2⟩
        have : j' ∈ j :: js := (hmem j').2 ⟨by omega, h2⟩
        rcases List.mem_cons.1 this with h' | h'
        · omega
        · exact h'
    -- chain value vanishes on unprocessed columns of this row strictly
    -- before the head index `j`
    have hmid : ∀ j', t ≤ j' → j' < j → chainLen a b alo blo bhi r j' = 0 := by
      intro j' h1 h2
      by_contra hne
      have hc := chainLen_cond a b alo blo bhi r j' (by omega)
      have : j' ∈ j :: js := (hmem j').2 ⟨h1, hc.2.2.2.1, hc.2.2.2.2.1.symm⟩
      rcases List.mem_cons.1 this with h' | h'
      · omega
      · have := hlt j' h'
        omega
    by_cases hjblo : j < blo
    · -- `continue` branch
      have hVj : chainLen a b alo blo bhi r j = 0 := by
        apply chainLen_zero
        intro hc
        omega
      rw [innerLoop, if_pos hjblo]
      apply ih g st (j + 1) hmem' hpwtail
      · intro j'
        rw [hg j']
        by_cases h1 : j' < t
        · simp [h1, show j' < j + 1 by omega]
        · by_cases h2 : j' < j + 1
          · have : chainLen a b alo blo bhi r j' = 0 := by
              by_cases h3 : j' = j
              · subst h3; exact hVj
              · exact hmid j' (by omega) (by omega)
            simp [h1, h2, this]
          · simp [h1, h2]
      · apply InvB_weaken a b alo blo bhi (Prow alo r t) _ st hinv
        · intro i j' h
          rcases h with ⟨h1, h2⟩ | ⟨h1, h2⟩
          · exact Or.inl ⟨h1, h2⟩
          · exact Or.inr ⟨h1, by omega⟩
        · intro i j' h
          rcases h with ⟨h1, h2⟩ | ⟨h1, h2⟩
          · exact Or.inl (Or.inl ⟨h1, h2⟩)
          · subst h1
            by_cases h3 : j' < t
            · exact Or.inl (Or.inr ⟨rfl, h3⟩)
            · refine Or.inr ?_
              by_cases h4 : j' = j
              · subst h4; exact hVj
              · exact hmid j' (by omega) (by omega)
    · by_cases hjbhi : bhi ≤ j
      · -- `break` branch
        rw [innerLoop, if_neg hjblo, if_pos hjbhi]
        have hz : ∀ j', t ≤ j' → chainLen a b alo blo bhi r j' = 0 := by
          intro j' h1
          by_contra hne
          have hc := chainLen_cond a b alo blo bhi r j' (by omega)
          have : j' ∈ j :: js := (hmem j').2 ⟨h1, hc.2.2.2.1, hc.2.2.2.2.1.symm⟩
          have hge : j ≤ j' := by
            rcases List.mem_cons.1 this with h' | h'
            · omega
            · have := hlt j' h'; omega
          have : j' < bhi := hc.2.2.1
          omega
        constructor
        · intro j'
          show g j' = _
          rw [hg j']
          by_cases h1 : j' < t
          · simp [h1]
          · simp [h1, hz j' (by omega)]
        · apply InvB_weaken a b alo blo bhi (Prow alo r t) _ st hinv
          · intro i j' h
            rcases h with ⟨h1, h2⟩ | ⟨h1, h2⟩ <;> exact ⟨by omega, by omega⟩
          · intro i j' h
            rcases h with ⟨h1, h2⟩
            by_cases hi : i < r
            · exact Or.inl (Or.inl ⟨h1, hi⟩)
            · have : i = r := by omega
              subst this
              by_cases h3 : j' < t
              · exact Or.inl (Or.inr ⟨rfl, h3⟩)
              · exact Or.inr (hz j' (by omega))
      · -- process branch
        have hcond : alo ≤ r ∧ blo ≤ j ∧ j < bhi ∧ j < b.length ∧
            getC a r = getC b j ∧ isPopular b (getC b j) = false := by
          refine ⟨halo, by omega, by omega, hjlen, hjc.symm, ?_⟩
          rw [hjc]; exact hpop
        have hk : (if j = 0 then 0 else f (j - 1)) + 1 =
            chainLen a b alo blo bhi r j := by
          rw [chainLen_eq a b alo blo bhi r j, if_pos hcond]
          by_cases hj0 : j = 0
          · subst hj0
            simp [show ¬ (alo < r ∧ blo < 0) by omega]
          · rw [if_neg hj0, hf (j - 1)]
            by_cases h1 : alo < r
            · by_cases h2 : blo < j
              · simp [h1, h2]
              · have hbj : blo = j := by omega
                have : chainLen a b alo blo bhi (r - 1) (j - 1) = 0 := by
                  apply chainLen_zero
                  intro hc
                  omega
                simp [h1, h2, this]
            · have : ¬ (alo < r ∧ blo < j) := by omega
              simp [h1, this]
        rw [innerLoop, if_neg hjblo, if_neg hjbhi]
        show (∀ j', (innerLoop r blo bhi f js (innerStep r f g st j).1
                (innerStep r f g st j).2).1 j' = chainLen a b alo blo bhi r j') ∧ _
        apply ih _ _ (j + 1) hmem' hpwtail
        · intro j'
          show (if j' = j then (if j = 0 then 0 else f (j - 1)) + 1 else g j') = _
          by_cases h1 : j' = j
          · subst h1
            simp [hk, show j' < j' + 1 by omega]
          · rw [if_neg h1, hg j']
            by_cases h2 : j' < t
            · simp [h2, show j' < j + 1 by omega]
            · by_cases h3 : j' < j + 1
              · have : chainLen a b alo blo bhi r j' = 0 :=
                  hmid j' (by omega) (by omega)
                simp [h2, h3, this]
              · simp [h2, h3]
        · show InvB a b alo blo bhi (Prow alo r (j + 1))
            (if st.size < (if j = 0 then 0 else f (j - 1)) + 1 then
              ⟨r + 1 - ((if j = 0 then 0 else f (j - 1)) + 1),
               j + 1 - ((if j = 0 then 0 else f (j - 1)) + 1),
               (if j = 0 then 0 else f (j - 1)) + 1⟩
             else st)
          rw [hk]
          have hstep := InvB_step a b alo blo bhi (Prow alo r t) st r j hinv ?_
          · apply InvB_weaken a b alo blo bhi _ _ _ hstep
            · intro i j' h
              rcases h with (⟨h1, h2⟩ | ⟨h1, h2⟩) | ⟨h1, h2⟩
              · exact Or.inl ⟨h1, h2⟩
              · exact Or.inr ⟨h1, by omega⟩
              · exact Or.inr ⟨h1, by omega⟩
            · intro i j' h
              rcases h with ⟨h1, h2⟩ | ⟨h1, h2⟩
              · exact Or.inl (Or.inl (Or.inl ⟨h1, h2⟩))
              · subst h1
                by_cases h3 : j' < t
                · exact Or.inl (Or.inl (Or.inr ⟨rfl, h3⟩))
                · by_cases h4 : j' = j
                  · exact Or.inl (Or.inr ⟨rfl, h4⟩)
                  · exact Or.inr (hmid j' (by omega) (by omega))
          · intro p q h
            rcases h with ⟨h1, h2⟩ | ⟨h1, h2⟩
            · exact Or.inl h2
            · exact Or.inr ⟨h1, by omega⟩

theorem outerLoop_spec :
    ∀ cnt r f st,
    alo ≤ r →
    (∀ j, f j = if alo < r then chainLen a b alo blo bhi (r - 1) j else 0) →
    InvB a b alo blo bhi (Pfull alo r) st →
    InvB a b alo blo bhi (Pfull alo (r + cnt)) (outerLoop a b blo bhi r cnt f st) := by
  intro cnt
  induction cnt with
  | zero =>
    intro r f st halo hf hinv
    rw [outerLoop]
    exact hinv
  | succ cnt ih =>
    intro r f st halo hf hinv
    rw [outerLoop]
    by_cases hpop : isPopular b (getC a r) = true
    · -- popular element: its `b2j` entry was purged, the row resets the map
      have hrow : ∀ j, chainLen a b alo blo bhi r j = 0 := by
        intro j
        by_contra hne
        have hc := chainLen_cond a b alo blo bhi r j (by omega)
        rw [hc.2.2.2.2.1] at hpop
        rw [hc.2.2.2.2.2] at hpop
        simp at hpop
      have hb2j : b2j b (getC a r) = [] := by rw [b2j, if_pos hpop]
      rw [hb2j, innerLoop]
      have : InvB a b alo blo bhi (Pfull alo (r + 1)) st := by
        apply InvB_weaken a b alo blo bhi (Pfull alo r) _ st hinv
        · intro i j h
          obtain ⟨h1, h2⟩ := h
          exact ⟨h1, by omega⟩
        · intro i j h
          obtain ⟨h1, h2⟩ := h
          by_cases hi : i < r
          · exact Or.inl ⟨h1, hi⟩
          · have : i = r := by omega
            subst this
            exact Or.inr (hrow j)
      have := ih (r + 1) (fun _ => 0) st (by omega) ?_ this
      · apply InvB_congr a b alo blo bhi _ _ _ this
        intro i j
        constructor <;> (intro h; obtain ⟨h1, h2⟩ := h; exact ⟨h1, by omega⟩)
      · intro j
        by_cases h : alo < r + 1
        · rw [if_pos h]
          simp [hrow j]
        · omega
    · have hpop' : isPopular b (getC a r) = false := by
        cases h : isPopular b (getC a r)
        · rfl
        · exact absurd h hpop
      have hb2j : b2j b (getC a r) = occIndices b (getC a r) := by
        rw [b2j, if_neg (by rw [hpop']; simp)]
      rw [hb2j]
      have hmem : ∀ j, j ∈ occIndices b (getC a r) ↔
          (0 ≤ j ∧ j < b.length ∧ getC b j = getC a r) := by
        intro j
        simp [occIndices, List.mem_filter, List.mem_range]
      have hpw : List.Pairwise (· < ·) (occIndices b (getC a r)) :=
        (List.pairwise_lt_range b.length).sublist (List.filter_sublist _)
      have hinv0 : InvB a b alo blo bhi (Prow alo r 0) st := by
        apply InvB_congr a b alo blo bhi _ _ _ hinv
        intro i j
        constructor
        · intro h; exact Or.inl h
        · intro h
          rcases h with h | ⟨_, h2⟩
          · exact h
          · omega
      have hspec := innerLoop_spec a b alo blo bhi r f halo hpop' hf
        (occIndices b (getC a r)) (fun _ => 0) st 0 hmem hpw (by intro j; simp) hinv0
      have := ih (r + 1)
        (innerLoop r blo bhi f (occIndices b (getC a r)) (fun _ => 0) st).1
        (innerLoop r blo bhi f (occIndices b (getC a r)) (fun _ => 0) st).2
        (by omega) ?_ hspec.2
      · apply InvB_congr a b alo blo bhi _ _ _ this
        intro i j
        constructor <;> (intro h; obtain ⟨h1, h2⟩ := h; exact ⟨h1, by omega⟩)
      · intro j
        rw [hspec.1 j, if_pos (by omega)]
        norm_num

theorem scan_spec (ahi : Nat) (h : alo ≤ ahi) :
    InvB a b alo blo bhi (Pfull alo ahi)
      (outerLoop a b blo bhi alo (ahi - alo) (fun _ => 0) ⟨alo, blo, 0⟩) := by
  have h0 : InvB a b alo blo bhi (Pfull alo alo) ⟨alo, blo, 0⟩ := by
    left
    refine ⟨rfl, fun i j hij => ?_⟩
    exfalso
    obtain ⟨h1, h2⟩ := hij
    omega
  have := outerLoop_spec a b alo blo bhi (ahi - alo) alo (fun _ => 0) ⟨alo, blo, 0⟩
    (le_refl alo) (by intro j; simp) h0
  apply InvB_congr a b alo blo bhi _ _ _ this
  intro i j
  constructor <;> (intro hij; obtain ⟨h1, h2⟩ := hij; exact ⟨h1, by omega⟩)

end Scan

/-! ## Bounds for `findLongestMatch` -/

theorem extendLeftAux_props (a b : List Char) (alo blo : Nat) :
    ∀ fuel st,
    (extendLeftAux a b alo blo fuel st).i + (extendLeftAux a b alo blo fuel st).size
        = st.i + st.size ∧
    (extendLeftAux a b alo blo fuel st).j + (extendLeftAux a b alo blo fuel st).size
        = st.j + st.size ∧
    st.size ≤ (extendLeftAux a b alo blo fuel st).size ∧
    (alo ≤ st.i → alo ≤ (extendLeftAux a b alo blo fuel st).i) ∧
    (blo ≤ st.j → blo ≤ (extendLeftAux a b alo blo fuel st).j) := by
  intro fuel
  induction fuel with
  | zero =>
    intro st
    rw [extendLeftAux]
    omega
  | succ fuel ih =>
    intro st
    rw [extendLeftAux]
    by_cases hc : alo < st.i ∧ blo < st.j ∧ getC a (st.i - 1) = getC b (st.j - 1)
    · rw [if_pos hc]
      have hih := ih ⟨st.i - 1, st.j - 1, st.size + 1⟩
      simp only [] at hih
      obtain ⟨e1, e2, e3, e4, e5⟩ := hih
      refine ⟨by omega, by omega, by omega, fun _ => e4 (by omega),
        fun _ => e5 (by omega)⟩
    · rw [if_neg hc]
      omega

theorem extendLeft_props (a b : List Char) (alo blo : Nat) (st : Block) :
    (extendLeft a b alo blo st).i + (extendLeft a b alo blo st).size
        = st.i + st.size ∧
    (extendLeft a b alo blo st).j + (extendLeft a b alo blo st).size
        = st.j + st.size ∧
    st.size ≤ (extendLeft a b alo blo st).size ∧
    (alo ≤ st.i → alo ≤ (extendLeft a b alo blo st).i) ∧
    (blo ≤ st.j → blo ≤ (extendLeft a b alo blo st).j) :=
  extendLeftAux_props a b alo blo st.i st

theorem extendRightAux_props (a b : List Char) (ahi bhi : Nat) :
    ∀ fuel st,
    (extendRightAux a b ahi bhi fuel st).i = st.i ∧
    (extendRightAux a b ahi bhi fuel st).j = st.j ∧
    st.size ≤ (extendRightAux a b ahi bhi fuel st).size ∧
    (st.i + st.size ≤ ahi →
      (extendRightAux a b ahi bhi fuel st).i +
        (extendRightAux a b ahi bhi fuel st).size ≤ ahi) ∧
    (st.j + st.size ≤ bhi →
      (extendRightAux a b ahi bhi fuel st).j +
        (extendRightAux a b ahi bhi fuel st).size ≤ bhi) := by
  intro fuel
  induction fuel with
  | zero =>
    intro st
    rw [extendRightAux]
    omega
  | succ fuel ih =>
    intro st
    rw [extendRightAux]
    by_cases hc : st.i + st.size < ahi ∧ st.j + st.size < bhi ∧
        getC a (st.i + st.size) = getC b (st.j + st.size)
    · rw [if_pos hc]
      have hih := ih ⟨st.i, st.j, st.size + 1⟩
      simp only [] at hih
      obtain ⟨e1, e2, e3, e4, e5⟩ := hih
      refine ⟨e1, e2, by omega, fun _ => ?_, fun _ => ?_⟩
      · exact e4 (by omega)
      · exact e5 (by omega)
    · rw [if_neg hc]
      omega

theorem extendRight_props (a b : List Char) (ahi bhi : Nat) (st : Block) :
    (extendRight a b ahi bhi st).i = st.i ∧
    (extendRight a b ahi bhi st).j = st.j ∧
    st.size ≤ (extendRight a b ahi bhi st).size ∧
    (st.i + st.size ≤ ahi →
      (extendRight a b ahi bhi st).i + (extendRight a b ahi bhi st).size ≤ ahi) ∧
    (st.j + st.size ≤ bhi →
      (extendRight a b ahi bhi st).j + (extendRight a b ahi bhi st).size ≤ bhi) :=
  extendRightAux_props a b ahi bhi (ahi - (st.i + st.size)) st

theorem extendLeftAux_id (a b : List Char) (alo blo : Nat) (fuel : Nat) (st : Block)
    (h : ¬ (alo < st.i ∧ blo < st.j ∧ getC a (st.i - 1) = getC b (st.j - 1))) :
    extendLeftAux a b alo blo fuel st = st := by
  cases fuel with
  | zero => rw [extendLeftAux]
  | succ fuel => rw [extendLeftAux, if_neg h]

theorem extendRightAux_id (a b : List Char) (ahi bhi : Nat) (fuel : Nat) (st : Block)
    (h : ¬ (st.i + st.size < ahi ∧ st.j + st.size < bhi ∧
      getC a (st.i + st.size) = getC b (st.j + st.size))) :
    extendRightAux a b ahi bhi fuel st = st := by
  cases fuel with
  | zero => rw [extendRightAux]
  | succ fuel => rw [extendRightAux, if_neg h]

/-- Bounds of `find_longest_match`: the returned block lies inside the
    rectangle, and a zero-size result is the degenerate `(alo, blo, 0)`. -/
theorem flm_bounds (a b : List Char) (alo ahi blo bhi : Nat)
    (h1 : alo ≤ ahi) (h2 : blo ≤ bhi) :
    alo ≤ (findLongestMatch a b alo ahi blo bhi).i ∧
    blo ≤ (findLongestMatch a b alo ahi blo bhi).j ∧
    (findLongestMatch a b alo ahi blo bhi).i +
      (findLongestMatch a b alo ahi blo bhi).size ≤ ahi ∧
    (findLongestMatch a b alo ahi blo bhi).j +
      (findLongestMatch a b alo ahi blo bhi).size ≤ bhi ∧
    ((findLongestMatch a b alo ahi blo bhi).size = 0 →
      findLongestMatch a b alo ahi blo bhi = ⟨alo, blo, 0⟩) := by
  have hscan := scan_spec a b alo blo bhi ahi h1
  set st0 := outerLoop a b blo bhi alo (ahi - alo) (fun _ => 0) ⟨alo, blo, 0⟩ with hst0
  have hb0 : alo ≤ st0.i ∧ blo ≤ st0.j ∧ st0.i + st0.size ≤ ahi ∧
      st0.j + st0.size ≤ bhi ∧ (st0.size = 0 → st0 = ⟨alo, blo, 0⟩) := by
    rcases hscan with ⟨hst, _⟩ | ⟨i₀, j₀, hP, hk, hst, _, _⟩
    · rw [hst]
      simp
      omega
    · have hcond := chainLen_cond a b alo blo bhi i₀ j₀ hk
      have hrow := chainLen_le_row a b alo blo bhi i₀ j₀
      have hcol := chainLen_le_col a b alo blo bhi i₀ j₀
      obtain ⟨hi1, hi2⟩ := hP
      rw [hst]
      simp
      omega
  have hL := extendLeft_props a b alo blo st0
  set stL := extendLeft a b alo blo st0 with hstL
  obtain ⟨e1, e2, e3, e4, e5⟩ := hL
  have hbL : alo ≤ stL.i ∧ blo ≤ stL.j ∧ stL.i + stL.size ≤ ahi ∧
      stL.j + stL.size ≤ bhi ∧ (stL.size = 0 → stL = ⟨alo, blo, 0⟩) := by
    refine ⟨e4 hb0.1, e5 hb0.2.1, by omega, by omega, fun hz => ?_⟩
    have hz0 : st0.size = 0 := by omega
    have hst00 := hb0.2.2.2.2 hz0
    have hi : st0.i = alo := by rw [hst00]
    have hj : st0.j = blo := by rw [hst00]
    cases stL1 : stL with
    | mk x y z =>
      rw [stL1] at hz e1 e2
      simp at hz e1 e2 ⊢
      exact ⟨by omega, by omega, hz⟩
  have hR := extendRight_props a b ahi bhi stL
  set stR := extendRight a b ahi bhi stL with hstR
  obtain ⟨f1, f2, f3, f4, f5⟩ := hR
  have hfl : findLongestMatch a b alo ahi blo bhi = stR := by
    rw [findLongestMatch, ← hst0, ← hstL, ← hstR]
  rw [hfl]
  refine ⟨by omega, by omega, f4 (by omega), f5 (by omega), fun hz => ?_⟩
  have hzL : stL.size = 0 := by omega
  have hstL0 := hbL.2.2.2.2 hzL
  have g1 : stL.i = alo := by rw [hstL0]
  have g2 : stL.j = blo := by rw [hstL0]
  cases hE : stR with
  | mk x y z =>
    rw [hE] at f1 f2 hz
    simp at f1 f2 hz ⊢
    exact ⟨by omega, by omega, hz⟩

/-! ## Chaining of matching blocks and lossless reconstruction -/

theorem slice_glue (l : List Char) (x y z : Nat) (h1 : x ≤ y) (h2 : y ≤ z) :
    slice l x y ++ slice l y z = slice l x z := by
  unfold slice
  have hz : z - x = (y - x) + (z - y) := by omega
  rw [hz, List.take_add]
  congr 1
  rw [List.drop_drop]
  congr 2
  omega

theorem slice_refl (l : List Char) (x : Nat) : slice l x x = [] := by
  unfold slice
  simp

theorem slice_full (l : List Char) : slice l 0 l.length = l := by
  unfold slice
  simp

theorem chained_le : ∀ (L : List Block) (c c' : Nat × Nat),
    Chained c L → c'.1 ≤ c.1 → c'.2 ≤ c.2 → Chained c' L := by
  intro L c c' h h1 h2
  cases L with
  | nil => trivial
  | cons bl rest =>
    obtain ⟨g1, g2, g3⟩ := h
    exact ⟨by omega, by omega, g3⟩

theorem endCur_append : ∀ (L L' : List Block) (c : Nat × Nat),
    endCur c (L ++ L') = endCur (endCur c L) L' := by
  intro L
  induction L with
  | nil => intro L' c; rfl
  | cons bl rest ih => intro L' c; exact ih L' _

theorem chained_append : ∀ (L L' : List Block) (c : Nat × Nat),
    Chained c L → Chained (endCur c L) L' → Chained c (L ++ L') := by
  intro L
  induction L with
  | nil => intro L' c _ h'; exact h'
  | cons bl rest ih =>
    intro L' c h h'
    obtain ⟨g1, g2, g3⟩ := h
    exact ⟨g1, g2, ih L' _ g3 h'⟩

theorem endCur_ge : ∀ (L : List Block) (c : Nat × Nat),
    Chained c L → c.1 ≤ (endCur c L).1 ∧ c.2 ≤ (endCur c L).2 := by
  intro L
  induction L with
  | nil => intro c _; exact ⟨le_refl _, le_refl _⟩
  | cons bl rest ih =>
    intro c h
    obtain ⟨g1, g2, g3⟩ := h
    have r1 : bl.i + bl.size ≤ (endCur (bl.i + bl.size, bl.j + bl.size) rest).1 :=
      (ih (bl.i + bl.size, bl.j + bl.size) g3).1
    have r2 : bl.j + bl.size ≤ (endCur (bl.i + bl.size, bl.j + bl.size) rest).2 :=
      (ih (bl.i + bl.size, bl.j + bl.size) g3).2
    constructor
    · show c.1 ≤ (endCur (bl.i + bl.size, bl.j + bl.size) rest).1
      omega
    · show c.2 ≤ (endCur (bl.i + bl.size, bl.j + bl.size) rest).2
      omega

theorem mba_chain (a b : List Char) : ∀ fuel alo ahi blo bhi,
    ahi - alo ≤ fuel → alo ≤ ahi → blo ≤ bhi →
    Chained (alo, blo) (matchingBlocksAux a b fuel alo ahi blo bhi) ∧
    (endCur (alo, blo) (matchingBlocksAux a b fuel alo ahi blo bhi)).1 ≤ ahi ∧
    (endCur (alo, blo) (matchingBlocksAux a b fuel alo ahi blo bhi)).2 ≤ bhi ∧
    ∀ bl ∈ matchingBlocksAux a b fuel alo ahi blo bhi, 1 ≤ bl.size := by
  intro fuel
  induction fuel with
  | zero =>
    intro alo ahi blo bhi hf h1 h2
    rw [matchingBlocksAux]
    refine ⟨trivial, by simpa using h1, by simpa using h2, by simp⟩
  | succ fuel ih =>
    intro alo ahi blo bhi hf h1 h2
    rw [matchingBlocksAux]
    set m := findLongestMatch a b alo ahi blo bhi with hm
    have hb := flm_bounds a b alo ahi blo bhi h1 h2
    rw [← hm] at hb
    obtain ⟨hb1, hb2, hb3, hb4, hb5⟩ := hb
    by_cases hz : m.size = 0
    · rw [if_pos hz]
      exact ⟨trivial, h1, h2, by simp⟩
    · rw [if_neg hz]
      have hsz : 1 ≤ m.size := by omega
      -- the two sub-recursions
      have hL : Chained (alo, blo)
            (if alo < m.i ∧ blo < m.j then
              matchingBlocksAux a b fuel alo m.i blo m.j else []) ∧
          (endCur (alo, blo) (if alo < m.i ∧ blo < m.j then
              matchingBlocksAux a b fuel alo m.i blo m.j else [])).1 ≤ m.i ∧
          (endCur (alo, blo) (if alo < m.i ∧ blo < m.j then
              matchingBlocksAux a b fuel alo m.i blo m.j else [])).2 ≤ m.j ∧
          ∀ bl ∈ (if alo < m.i ∧ blo < m.j then
              matchingBlocksAux a b fuel alo m.i blo m.j else []), 1 ≤ bl.size := by
        by_cases hg : alo < m.i ∧ blo < m.j
        · rw [if_pos hg]
          exact ih alo m.i blo m.j (by omega) (by omega) (by omega)
        · rw [if_neg hg]
          exact ⟨trivial, hb1, hb2, by simp⟩
      have hR : Chained (m.i + m.size, m.j + m.size)
            (if m.i + m.size < ahi ∧ m.j + m.size < bhi then
              matchingBlocksAux a b fuel (m.i + m.size) ahi (m.j + m.size) bhi else []) ∧
          (endCur (m.i + m.size, m.j + m.size)
            (if m.i + m.size < ahi ∧ m.j + m.size < bhi then
              matchingBlocksAux a b fuel (m.i + m.size) ahi (m.j + m.size) bhi else [])).1 ≤ ahi ∧
          (endCur (m.i + m.size, m.j + m.size)
            (if m.i + m.size < ahi ∧ m.j + m.size < bhi then
              matchingBlocksAux a b fuel (m.i + m.size) ahi (m.j + m.size) bhi else [])).2 ≤ bhi ∧
          ∀ bl ∈ (if m.i + m.size < ahi ∧ m.j + m.size < bhi then
              matchingBlocksAux a b fuel (m.i + m.size) ahi (m.j + m.size) bhi else []),
            1 ≤ bl.size := by
        by_cases hg : m.i + m.size < ahi ∧ m.j + m.size < bhi
        · rw [if_pos hg]
          exact ih (m.i + m.size) ahi (m.j + m.size) bhi (by omega) (by omega) (by omega)
        · rw [if_neg hg]
          exact ⟨trivial, hb3, hb4, by simp⟩
      obtain ⟨c1, c2, c3, c4⟩ := hL
      obtain ⟨d1, d2, d3, d4⟩ := hR
      refine ⟨?_, ?_, ?_, ?_⟩
      · apply chained_append _ _ _ c1
        refine ⟨c2, c3, d1⟩
      · rw [endCur_append]
        show (endCur (endCur (alo, blo) _) (_ :: _)).1 ≤ ahi
        rw [show ∀ (c : Nat × Nat) (L : List Block),
            endCur c (m :: L) = endCur (m.i + m.size, m.j + m.size) L
          from fun c L => rfl]
        exact d2
      · rw [endCur_append]
        rw [show ∀ (c : Nat × Nat) (L : List Block),
            endCur c (m :: L) = endCur (m.i + m.size, m.j + m.size) L
          from fun c L => rfl]
        exact d3
      · intro bl hbl
        rcases List.mem_append.1 hbl with h | h
        · exact c4 bl h
        · rcases List.mem_cons.1 h with h' | h'
          · rw [h']; exact hsz
          · exact d4 bl h'

theorem collapse_spec : ∀ (L : List Block) (i1 j1 k1 : Nat) (c : Nat × Nat),
    1 ≤ k1 → c.1 ≤ i1 → c.2 ≤ j1 →
    Chained (i1 + k1, j1 + k1) L → (∀ bl ∈ L, 1 ≤ bl.size) →
    Chained c (collapseBlocks i1 j1 k1 L) ∧
    endCur c (collapseBlocks i1 j1 k1 L) = endCur (i1 + k1, j1 + k1) L := by
  intro L
  induction L with
  | nil =>
    intro i1 j1 k1 c hk h1 h2 hch hs
    rw [collapseBlocks, if_pos (by omega)]
    exact ⟨⟨h1, h2, trivial⟩, rfl⟩
  | cons bl rest ih =>
    intro i1 j1 k1 c hk h1 h2 hch hs
    obtain ⟨g1, g2, g3⟩ := hch
    have hbls : 1 ≤ bl.size := hs bl (List.mem_cons_self bl rest)
    rw [collapseBlocks]
    by_cases hadj : i1 + k1 = bl.i ∧ j1 + k1 = bl.j
    · rw [if_pos hadj]
      have := ih i1 j1 (k1 + bl.size) c (by omega) h1 h2
        (by rw [show i1 + (k1 + bl.size) = bl.i + bl.size by omega,
               show j1 + (k1 + bl.size) = bl.j + bl.size by omega]; exact g3)
        (fun x hx => hs x (List.mem_cons_of_mem bl hx))
      refine ⟨this.1, ?_⟩
      rw [this.2]
      show _ = endCur (bl.i + bl.size, bl.j + bl.size) rest
      rw [show i1 + (k1 + bl.size) = bl.i + bl.size by omega,
          show j1 + (k1 + bl.size) = bl.j + bl.size by omega]
    · rw [if_neg hadj, if_pos (by omega)]
      have := ih bl.i bl.j bl.size (i1 + k1, j1 + k1) hbls (by simpa using g1)
        (by simpa using g2) g3 (fun x hx => hs x (List.mem_cons_of_mem bl hx))
      constructor
      · show Chained c (⟨i1, j1, k1⟩ :: _)
        exact ⟨h1, h2, this.1⟩
      · show endCur (i1 + k1, j1 + k1) (collapseBlocks bl.i bl.j bl.size rest) = _
        rw [this.2]
        rfl

theorem spansOfOps_text (after : List Char) : ∀ ops : List Opcode,
    ((spansOfOps after ops).map DiffSpan.text).flatten =
    (ops.map (fun op => if op.tag = Tag.delete then []
      else slice after op.j1 op.j2)).flatten := by
  intro ops
  induction ops with
  | nil => rfl
  | cons op rest ih =>
    obtain ⟨tg, i1, i2, j1, j2⟩ := op
    cases tg with
    | equal =>
      show slice after j1 j2 ++ ((spansOfOps after rest).map DiffSpan.text).flatten
        = (if Tag.equal = Tag.delete then [] else slice after j1 j2) ++ _
      rw [ih, if_neg (by decide)]
    | replace =>
      show slice after j1 j2 ++ ((spansOfOps after rest).map DiffSpan.text).flatten
        = (if Tag.replace = Tag.delete then [] else slice after j1 j2) ++ _
      rw [ih, if_neg (by decide)]
    | insert =>
      show slice after j1 j2 ++ ((spansOfOps after rest).map DiffSpan.text).flatten
        = (if Tag.insert = Tag.delete then [] else slice after j1 j2) ++ _
      rw [ih, if_neg (by decide)]
    | delete =>
      show ((spansOfOps after rest).map DiffSpan.text).flatten
        = (if Tag.delete = Tag.delete then [] else slice after j1 j2) ++ _
      rw [ih, if_pos rfl]
      rfl

theorem ofb_join (after : List Char) : ∀ (blocks : List Block) (i j : Nat),
    Chained (i, j) blocks →
    ((opcodesFromBlocks i j blocks).map
      (fun op => if op.tag = Tag.delete then []
        else slice after op.j1 op.j2)).flatten
    = slice after j (endCur (i, j) blocks).2 := by
  intro blocks
  induction blocks with
  | nil =>
    intro i j _
    show ([] : List Char) = slice after j j
    rw [slice_refl]
  | cons bl rest ih =>
    intro i j hch
    obtain ⟨g1, g2, g3⟩ := hch
    have hrec := ih (bl.i + bl.size) (bl.j + bl.size) g3
    have hend : bl.j + bl.size ≤ (endCur (bl.i + bl.size, bl.j + bl.size) rest).2 :=
      (endCur_ge rest (bl.i + bl.size, bl.j + bl.size) g3).2
    rw [opcodesFromBlocks]
    rw [List.map_append, List.map_append, List.flatten_append, List.flatten_append]
    have hpre : ((if i < bl.i ∧ j < bl.j then [⟨Tag.replace, i, bl.i, j, bl.j⟩]
          else if i < bl.i then [⟨Tag.delete, i, bl.i, j, bl.j⟩]
          else if j < bl.j then [⟨Tag.insert, i, bl.i, j, bl.j⟩]
          else ([] : List Opcode)).map
          (fun op => if op.tag = Tag.delete then []
            else slice after op.j1 op.j2)).flatten = slice after j bl.j := by
      by_cases c1 : i < bl.i ∧ j < bl.j
      · rw [if_pos c1]; simp
      · rw [if_neg c1]
        by_cases c2 : i < bl.i
        · rw [if_pos c2]
          have : j = bl.j := by omega
          subst this
          simp [slice_refl]
        · rw [if_neg c2]
          by_cases c3 : j < bl.j
          · rw [if_pos c3]; simp
          · have : j = bl.j := by omega
            subst this
            simp [slice_refl]
    have heq : ((if bl.size ≠ 0 then
          [⟨Tag.equal, bl.i, bl.i + bl.size, bl.j, bl.j + bl.size⟩]
          else ([] : List Opcode)).map
          (fun op => if op.tag = Tag.delete then []
            else slice after op.j1 op.j2)).flatten
        = slice after bl.j (bl.j + bl.size) := by
      by_cases c : bl.size = 0
      · rw [if_neg (by omega)]
        rw [c]
        simp [slice_refl]
      · rw [if_pos (by omega)]
        simp
    rw [hpre, heq, hrec]
    show _ = slice after j (endCur (bl.i + bl.size, bl.j + bl.size) rest).2
    rw [List.append_assoc,
        slice_glue after bl.j (bl.j + bl.size) _ (by omega) hend,
        slice_glue after j bl.j _ g2 (by omega)]

theorem collapse_top (L : List Block) (h : Chained (0, 0) L)
    (hs : ∀ bl ∈ L, 1 ≤ bl.size) :
    Chained (0, 0) (collapseBlocks 0 0 0 L) ∧
    endCur (0, 0) (collapseBlocks 0 0 0 L) = endCur (0, 0) L := by
  cases L with
  | nil =>
    rw [collapseBlocks, if_neg (by omega)]
    exact ⟨trivial, rfl⟩
  | cons bl rest =>
    obtain ⟨g1, g2, g3⟩ := h
    have hbls : 1 ≤ bl.size := hs bl (List.mem_cons_self bl rest)
    have hrest : ∀ x ∈ rest, 1 ≤ x.size := fun x hx => hs x (List.mem_cons_of_mem bl hx)
    rw [collapseBlocks]
    by_cases hadj : 0 + 0 = bl.i ∧ 0 + 0 = bl.j
    · rw [if_pos hadj]
      have hbi : bl.i = 0 := by omega
      have hbj : bl.j = 0 := by omega
      rw [hbi, hbj] at g3
      have hsp := collapse_spec rest 0 0 (0 + bl.size) (0, 0) (by omega)
        (le_refl _) (le_refl _) (by simpa using g3) hrest
      refine ⟨hsp.1, ?_⟩
      rw [hsp.2]
      show endCur (0 + (0 + bl.size), 0 + (0 + bl.size)) rest
        = endCur (bl.i + bl.size, bl.j + bl.size) rest
      rw [hbi, hbj]
      simp
    · rw [if_neg hadj, if_neg (by omega)]
      have hsp := collapse_spec rest bl.i bl.j bl.size (0, 0) hbls
        (by simp) (by simp) g3 hrest
      refine ⟨?_, ?_⟩
      · show Chained (0, 0) (collapseBlocks bl.i bl.j bl.size rest)
        exact hsp.1
      · show endCur (0, 0) (collapseBlocks bl.i bl.j bl.size rest) = _
        rw [hsp.2]
        rfl

/-- C1 (claim): concatenating the spans' text reconstructs `after`. -/
theorem diffSpans_reconstruct (before after : List Char) :
    ((diffSpans before after).map DiffSpan.text).flatten = after := by
  rw [diffSpans, spansOfOps_text]
  have hmba := mba_chain before after before.length 0 before.length 0 after.length
    (by omega) (by omega) (by omega)
  obtain ⟨hch, he1, he2, hsz⟩ := hmba
  set B0 := matchingBlocksAux before after before.length 0 before.length 0 after.length
    with hB0
  have hcoll := collapse_top B0 hch hsz
  obtain ⟨hc1, hc2⟩ := hcoll
  have hchain : Chained (0, 0) (collapseBlocks 0 0 0 B0 ++ [⟨before.length, after.length, 0⟩]) := by
    apply chained_append _ _ _ hc1
    show Chained (endCur (0, 0) (collapseBlocks 0 0 0 B0)) [⟨before.length, after.length, 0⟩]
    rw [hc2]
    exact ⟨he1, he2, trivial⟩
  have hend : (endCur (0, 0)
      (collapseBlocks 0 0 0 B0 ++ [⟨before.length, after.length, 0⟩])).2 = after.length := by
    rw [endCur_append]
    rfl
  show ((opcodesFromBlocks 0 0 (collapseBlocks 0 0 0 B0 ++ [⟨before.length, after.length, 0⟩])).map
      _).flatten = after
  rw [ofb_join after _ 0 0 hchain, hend]
  exact slice_full after

/-! ## Empty-input behaviour (claim C5) -/

theorem b2j_nil (c : Char) : b2j [] c = [] := by
  rw [b2j, occIndices]
  simp

theorem outerLoop_b_nil (a : List Char) (blo bhi : Nat) :
    ∀ cnt r f st, outerLoop a [] blo bhi r cnt f st = st := by
  intro cnt
  induction cnt with
  | zero => intro r f st; rw [outerLoop]
  | succ cnt ih =>
    intro r f st
    rw [outerLoop, b2j_nil, innerLoop]
    exact ih (r + 1) _ _

theorem flm_b_nil (a : List Char) (alo ahi : Nat) :
    findLongestMatch a [] alo ahi 0 0 = ⟨alo, 0, 0⟩ := by
  rw [findLongestMatch, outerLoop_b_nil]
  rw [extendLeft, extendLeftAux_id _ _ _ _ _ _ (by simp)]
  rw [extendRight, extendRightAux_id _ _ _ _ _ _ (by simp)]

theorem getOpcodes_after_nil (s : List Char) :
    getOpcodes s [] = if s.isEmpty then []
      else [⟨.delete, 0, s.length, 0, 0⟩] := by
  have hmba : matchingBlocksAux s [] s.length 0 s.length 0 0 = [] := by
    cases hs : s.length with
    | zero => rw [matchingBlocksAux]
    | succ n =>
      rw [matchingBlocksAux]
      rw [show findLongestMatch s [] 0 (n + 1) 0 0 = ⟨0, 0, 0⟩ from flm_b_nil s 0 (n + 1)]
      rw [if_pos rfl]
  rw [getOpcodes, getMatchingBlocks]
  simp only [List.length_nil]
  rw [hmba]
  rw [collapseBlocks, if_neg (by omega), List.nil_append]
  cases s with
  | nil => rfl
  | cons c cs =>
    rw [opcodesFromBlocks]
    rw [if_neg (by simp), if_pos (by simp), if_neg (by simp)]
    simp [opcodesFromBlocks]

theorem getOpcodes_before_nil (s : List Char) :
    getOpcodes [] s = if s.isEmpty then []
      else [⟨.insert, 0, 0, 0, s.length⟩] := by
  have hmba : matchingBlocksAux [] s 0 0 0 0 s.length = [] := by
    rw [matchingBlocksAux]
  rw [getOpcodes, getMatchingBlocks]
  simp only [List.length_nil]
  rw [hmba]
  rw [collapseBlocks, if_neg (by omega), List.nil_append]
  cases s with
  | nil => rfl
  | cons c cs =>
    rw [opcodesFromBlocks]
    rw [if_neg (by simp), if_neg (by simp), if_pos (by simp), if_neg (by simp)]
    simp [opcodesFromBlocks]

theorem diffSpans_before_nil (s : List Char) :
    diffSpans [] s = if s.isEmpty then [] else [⟨.changed, s⟩] := by
  rw [diffSpans, getOpcodes_before_nil]
  cases s with
  | nil => rfl
  | cons c cs =>
    rw [if_neg (by simp), if_neg (by simp)]
    show [(⟨SpanTag.changed, slice (c :: cs) 0 (c :: cs).length⟩ : DiffSpan)] = _
    rw [slice_full]

theorem diffSpans_after_nil (s : List Char) : diffSpans s [] = [] := by
  rw [diffSpans, getOpcodes_after_nil]
  cases s with
  | nil => rfl
  | cons c cs => rw [if_neg (by simp)]; rfl

theorem chd_after_nil (s : List Char) : createHighlightedDiff s [] = [] := by
  rw [createHighlightedDiff, getOpcodes_after_nil]
  cases s with
  | nil => rfl
  | cons c cs => rw [if_neg (by simp)]; rfl

/-! ## Identity diff (claim C3): `diff(s, s)` is one `equal` opcode

Even with autojunk active (popular characters purged from `b2j`), the
best chain the DP records for `a = b = s` always lies on the diagonal:
a chain ending at `(i, j)` pairs equal characters, so the same characters
also chain on the diagonals at `(i, i)` and `(j, j)`, and the row-major
first maximum is therefore diagonal.  The extension loops then grow a
diagonal block to the whole string. -/

theorem chainLen_diag_dom (s : List Char) :
    ∀ i j, i < s.length →
    chainLen s s 0 0 s.length i j ≤ chainLen s s 0 0 s.length j j ∧
    chainLen s s 0 0 s.length i j ≤ chainLen s s 0 0 s.length i i := by
  intro i
  induction i using Nat.strong_induction_on with
  | _ i ih =>
    intro j hi
    by_cases hz : chainLen s s 0 0 s.length i j = 0
    · rw [hz]
      omega
    · have hc := chainLen_cond s s 0 0 s.length i j (by omega)
      obtain ⟨-, -, hjn, hjlen, hchar, hpop⟩ := hc
      have hpopi : isPopular s (getC s i) = false := by rw [hchar]; exact hpop
      have hcondjj : 0 ≤ j ∧ 0 ≤ j ∧ j < s.length ∧ j < s.length ∧
          getC s j = getC s j ∧ isPopular s (getC s j) = false :=
        ⟨by omega, by omega, hjn, hjlen, rfl, hpop⟩
      have hcondii : 0 ≤ i ∧ 0 ≤ i ∧ i < s.length ∧ i < s.length ∧
          getC s i = getC s i ∧ isPopular s (getC s i) = false :=
        ⟨by omega, by omega, hi, hi, rfl, hpopi⟩
      have hcondij : 0 ≤ i ∧ 0 ≤ j ∧ j < s.length ∧ j < s.length ∧
          getC s i = getC s j ∧ isPopular s (getC s j) = false :=
        ⟨by omega, by omega, hjn, hjlen, hchar, hpop⟩
      rw [chainLen_eq s s 0 0 s.length i j, if_pos hcondij]
      rw [chainLen_eq s s 0 0 s.length j j, if_pos hcondjj]
      rw [chainLen_eq s s 0 0 s.length i i, if_pos hcondii]
      by_cases hij : 0 < i ∧ 0 < j
      · rw [if_pos hij, if_pos (by omega), if_pos (by omega)]
        have := ih (i - 1) (by omega) (j - 1) (by omega)
        omega
      · rw [if_neg hij]
        omega

theorem extendLeftAux_diag (s : List Char) :
    ∀ fuel x k, x ≤ fuel →
    extendLeftAux s s 0 0 fuel ⟨x, x, k⟩ = ⟨0, 0, k + x⟩ := by
  intro fuel
  induction fuel with
  | zero =>
    intro x k hx
    have : x = 0 := by omega
    subst this
    rw [extendLeftAux]
    simp
  | succ fuel ih =>
    intro x k hx
    rw [extendLeftAux]
    by_cases h0 : 0 < x
    · rw [if_pos ⟨h0, h0, rfl⟩]
      rw [ih (x - 1) (k + 1) (by omega)]
      have : k + 1 + (x - 1) = k + x := by omega
      rw [this]
    · have : x = 0 := by omega
      subst this
      rw [if_neg (by simp)]
      simp

theorem extendRightAux_diag0 (s : List Char) :
    ∀ fuel k, s.length - k ≤ fuel → k ≤ s.length →
    extendRightAux s s s.length s.length fuel ⟨0, 0, k⟩ = ⟨0, 0, s.length⟩ := by
  intro fuel
  induction fuel with
  | zero =>
    intro k h1 h2
    have : k = s.length := by omega
    subst this
    rw [extendRightAux]
  | succ fuel ih =>
    intro k h1 h2
    rw [extendRightAux]
    by_cases hk : 0 + k < s.length
    · rw [if_pos ⟨hk, hk, rfl⟩]
      exact ih (k + 1) (by omega) (by omega)
    · have : k = s.length := by omega
      subst this
      rw [if_neg (by simp)]

theorem flm_self (s : List Char) :
    findLongestMatch s s 0 s.length 0 s.length = ⟨0, 0, s.length⟩ := by
  have hscan := scan_spec s s 0 0 s.length s.length (by omega)
  rw [findLongestMatch]
  set st0 := outerLoop s s 0 s.length 0 (s.length - 0) (fun _ => 0) ⟨0, 0, 0⟩ with hst0
  have hdiag : ∃ x k, x + k ≤ s.length ∧ st0 = ⟨x, x, k⟩ := by
    rcases hscan with ⟨hst, -⟩ | ⟨i₀, j₀, hP, hk, hst, hmax, hfirst⟩
    · exact ⟨0, 0, by omega, hst⟩
    · have hc := chainLen_cond s s 0 0 s.length i₀ j₀ hk
      have hi0n : i₀ < s.length := by
        obtain ⟨h1, h2⟩ := hP
        exact h2
      have heq : i₀ = j₀ := by
        by_contra hne
        have hdom := chainLen_diag_dom s i₀ j₀ hi0n
        rcases Nat.lt_or_ge i₀ j₀ with hlt | hge
        · -- the diagonal cell (i₀, i₀) already attains the maximum earlier
          have h1 : chainLen s s 0 0 s.length i₀ i₀ ≤ chainLen s s 0 0 s.length i₀ j₀ :=
            hmax i₀ i₀ ⟨by omega, hi0n⟩
          have h2 : chainLen s s 0 0 s.length i₀ i₀ = chainLen s s 0 0 s.length i₀ j₀ := by
            omega
          have := hfirst i₀ i₀ ⟨by omega, hi0n⟩ h2
          exact this (Or.inr ⟨rfl, hlt⟩)
        · have hlt : j₀ < i₀ := by omega
          have hj0n : j₀ < s.length := hc.2.2.1
          have h1 : chainLen s s 0 0 s.length j₀ j₀ ≤ chainLen s s 0 0 s.length i₀ j₀ :=
            hmax j₀ j₀ ⟨by omega, by omega⟩
          have h2 : chainLen s s 0 0 s.length j₀ j₀ = chainLen s s 0 0 s.length i₀ j₀ := by
            omega
          have := hfirst j₀ j₀ ⟨by omega, by omega⟩ h2
          exact this (Or.inl hlt)
      subst heq
      refine ⟨i₀ + 1 - chainLen s s 0 0 s.length i₀ i₀,
        chainLen s s 0 0 s.length i₀ i₀, ?_, hst⟩
      have := chainLen_le_row s s 0 0 s.length i₀ i₀
      omega
  obtain ⟨x, k, hxk, hxst⟩ := hdiag
  rw [hxst]
  rw [show extendLeft s s 0 0 ⟨x, x, k⟩ = extendLeftAux s s 0 0 x ⟨x, x, k⟩ from rfl]
  rw [extendLeftAux_diag s x x k (le_refl x)]
  rw [show extendRight s s s.length s.length ⟨0, 0, k + x⟩
      = extendRightAux s s s.length s.length (s.length - (0 + (k + x))) ⟨0, 0, k + x⟩
    from rfl]
  rw [extendRightAux_diag0 s (s.length - (0 + (k + x))) (k + x) (by omega) (by omega)]

theorem getOpcodes_self (s : List Char) :
    getOpcodes s s = if s.isEmpty then []
      else [⟨.equal, 0, s.length, 0, s.length⟩] := by
  cases hs : s with
  | nil => rfl
  | cons c cs =>
    rw [if_neg (by simp)]
    have hn : 1 ≤ s.length := by rw [hs]; simp
    rw [← hs]
    have hmba : matchingBlocksAux s s s.length 0 s.length 0 s.length
        = [⟨0, 0, s.length⟩] := by
      cases hl : s.length with
      | zero => omega
      | succ n =>
        rw [matchingBlocksAux]
        rw [show findLongestMatch s s 0 (n + 1) 0 (n + 1) = ⟨0, 0, n + 1⟩ by
          rw [← hl]; exact flm_self s]
        rw [if_neg (by simp)]
        rw [if_neg (by simp), if_neg (by simp)]
        rfl
    rw [getOpcodes, getMatchingBlocks, hmba]
    have hne : s.length ≠ 0 := by omega
    simp [collapseBlocks, opcodesFromBlocks, hne]

theorem diffSpans_self (s : List Char) :
    diffSpans s s = if s.isEmpty then [] else [⟨.unchanged, s⟩] := by
  rw [diffSpans, getOpcodes_self]
  cases s with
  | nil => rfl
  | cons c cs =>
    rw [if_neg (by simp), if_neg (by simp)]
    show [(⟨SpanTag.unchanged, slice (c :: cs) 0 (c :: cs).length⟩ : DiffSpan)] = _
    rw [slice_full]

/-! ## Escaping safety (claim C6) -/

theorem escChar_no_markup (c : Char) :
    '<' ∉ escChar c ∧ '>' ∉ escChar c := by
  unfold escChar
  split_ifs with h1 h2 h3 h4 h5
  · exact ⟨by decide, by decide⟩
  · exact ⟨by decide, by decide⟩
  · exact ⟨by decide, by decide⟩
  · exact ⟨by decide, by decide⟩
  · exact ⟨by decide, by decide⟩
  · constructor
    · intro h
      rw [List.mem_singleton] at h
      exact h2 h.symm
    · intro h
      rw [List.mem_singleton] at h
      exact h3 h.symm

theorem htmlEscape_no_markup (s : List Char) :
    '<' ∉ htmlEscape s ∧ '>' ∉ htmlEscape s := by
  induction s with
  | nil => exact ⟨by decide, by decide⟩
  | cons c cs ih =>
    show '<' ∉ escChar c ++ htmlEscape cs ∧ '>' ∉ escChar c ++ htmlEscape cs
    have he := escChar_no_markup c
    constructor
    · intro h
      rcases List.mem_append.1 h with h | h
      · exact he.1 h
      · exact ih.1 h
    · intro h
      rcases List.mem_append.1 h with h | h
      · exact he.2 h
      · exact ih.2 h

theorem unescape_amp (r : List Char) :
    unescapeHtml ('&' :: 'a' :: 'm' :: 'p' :: ';' :: r) = '&' :: unescapeHtml r := by
  rw [unescapeHtml, if_pos ⟨rfl, rfl⟩]
  rfl

theorem unescape_lt (r : List Char) :
    unescapeHtml ('&' :: 'l' :: 't' :: ';' :: r) = '<' :: unescapeHtml r := by
  rw [unescapeHtml, if_neg (by simp), if_pos ⟨rfl, rfl⟩]
  rfl

theorem unescape_gt (r : List Char) :
    unescapeHtml ('&' :: 'g' :: 't' :: ';' :: r) = '>' :: unescapeHtml r := by
  rw [unescapeHtml, if_neg (by simp), if_neg (by simp), if_pos ⟨rfl, rfl⟩]
  rfl

theorem unescape_quot (r : List Char) :
    unescapeHtml ('&' :: 'q' :: 'u' :: 'o' :: 't' :: ';' :: r)
      = '"' :: unescapeHtml r := by
  rw [unescapeHtml, if_neg (by simp), if_neg (by simp), if_neg (by simp),
    if_pos ⟨rfl, rfl⟩]
  rfl

theorem unescape_apos (r : List Char) :
    unescapeHtml ('&' :: '#' :: 'x' :: '2' :: '7' :: ';' :: r)
      = '\'' :: unescapeHtml r := by
  rw [unescapeHtml, if_neg (by simp), if_neg (by simp), if_neg (by simp),
    if_neg (by simp), if_pos ⟨rfl, rfl⟩]
  rfl

theorem unescape_other (c : Char) (h : c ≠ '&') (r : List Char) :
    unescapeHtml (c :: r) = c :: unescapeHtml r := by
  rw [unescapeHtml, if_neg (fun hc => h hc.1), if_neg (fun hc => h hc.1),
    if_neg (fun hc => h hc.1), if_neg (fun hc => h hc.1), if_neg (fun hc => h hc.1)]

theorem unescape_escape (s : List Char) :
    unescapeHtml (htmlEscape s) = s := by
  induction s with
  | nil =>
    show unescapeHtml [] = []
    rw [unescapeHtml]
  | cons c cs ih =>
    show unescapeHtml (escChar c ++ htmlEscape cs) = c :: cs
    unfold escChar
    split_ifs with h1 h2 h3 h4 h5
    · subst h1
      show unescapeHtml ('&' :: 'a' :: 'm' :: 'p' :: ';' :: htmlEscape cs) = _
      rw [unescape_amp, ih]
    · subst h2
      show unescapeHtml ('&' :: 'l' :: 't' :: ';' :: htmlEscape cs) = _
      rw [unescape_lt, ih]
    · subst h3
      show unescapeHtml ('&' :: 'g' :: 't' :: ';' :: htmlEscape cs) = _
      rw [unescape_gt, ih]
    · subst h4
      show unescapeHtml ('&' :: 'q' :: 'u' :: 'o' :: 't' :: ';' :: htmlEscape cs) = _
      rw [unescape_quot, ih]
    · subst h5
      show unescapeHtml ('&' :: '#' :: 'x' :: '2' :: '7' :: ';' :: htmlEscape cs) = _
      rw [unescape_apos, ih]
    · show unescapeHtml (c :: htmlEscape cs) = c :: cs
      rw [unescape_other c h1, ih]

theorem renderOpcode_cases (t2 : List Char) (op : Opcode) :
    renderOpcode t2 op = htmlEscape (slice t2 op.j1 op.j2) ∨
    renderOpcode t2 op = "<mark>".data ++ htmlEscape (slice t2 op.j1 op.j2)
      ++ "</mark>".data ∨
    renderOpcode t2 op = [] := by
  obtain ⟨tg, i1, i2, j1, j2⟩ := op
  cases tg
  · exact Or.inl rfl
  · exact Or.inr (Or.inl rfl)
  · exact Or.inr (Or.inr rfl)
  · exact Or.inr (Or.inl rfl)

/-! ## Record store lemmas (claims C7 - C10) -/

theorem allItems_addToLang (l : String) (it : Item) :
    ∀ d, List.Perm (allItems (addToLang d l it)) (allItems d ++ [it]) := by
  intro d
  induction d with
  | nil =>
    show List.Perm (allItems [(l, [it])]) _
    simp [allItems]
  | cons p rest ih =>
    obtain ⟨k, v⟩ := p
    rw [addToLang]
    by_cases hk : k = l
    · rw [if_pos hk]
      show List.Perm (allItems ((k, v ++ [it]) :: rest)) _
      simp only [allItems, List.map_cons, List.flatten_cons, List.append_assoc]
      exact ((List.perm_append_singleton it _).symm).append_left v
    · rw [if_neg hk]
      show List.Perm (allItems ((k, v) :: addToLang rest l it)) _
      simp only [allItems, List.map_cons, List.flatten_cons] at ih ⊢
      have := ih.append_left v
      simpa [List.append_assoc] using this

theorem keysOf_addToLang (l : String) (it : Item) :
    ∀ d k, k ∈ keysOf (addToLang d l it) → k ∈ keysOf d ∨ k = l := by
  intro d
  induction d with
  | nil =>
    intro k hk
    simp [addToLang, keysOf] at hk
    exact Or.inr hk
  | cons p rest ih =>
    obtain ⟨k0, v⟩ := p
    intro k hk
    rw [addToLang] at hk
    by_cases hk0 : k0 = l
    · rw [if_pos hk0] at hk
      simp [keysOf] at hk ⊢
      tauto
    · rw [if_neg hk0] at hk
      simp [keysOf] at hk ⊢
      rcases hk with h | h
      · tauto
      · rcases ih k (by simpa [keysOf] using h) with h' | h'
        · simp [keysOf] at h'
          tauto
        · tauto

theorem convItem_image_name (cmap : List (String × String)) (it : Item) :
    (convItem cmap it).image_name = it.image_name := by
  cases h : it.image_name with
  | none =>
    rw [convItem, h]
    exact h
  | some n => rw [convItem, h]

theorem processItems_spec (cmap : List (String × String)) :
    ∀ items d ws,
    (∀ it ∈ items, it.image_name ≠ none) →
    ∃ ws' d', processItems cmap items d ws = .ok (ws ++ ws') d' ∧
      List.Perm (allItems d')
        (allItems d ++ (items.filter wfItem).map (convItem cmap)) ∧
      (∀ k, k ∈ keysOf d' →
        k ∈ keysOf d ∨ ∃ it ∈ items, wfItem it = true ∧ k = langOf it) ∧
      (∀ it ∈ items, wfItem it = false → skipWarnMsg it ∈ ws') := by
  intro items
  induction items with
  | nil =>
    intro d ws h
    refine ⟨[], d, ?_, ?_, ?_, ?_⟩
    · rw [processItems, List.append_nil]
    · simp
    · intro k hk
      exact Or.inl hk
    · intro it hit
      simp at hit
  | cons it rest ih =>
    intro d ws h
    have hnone : it.image_name ≠ none := h it (List.mem_cons_self it rest)
    cases hname : it.image_name with
    | none => exact absurd hname hnone
    | some name =>
      have hrest : ∀ x ∈ rest, x.image_name ≠ none :=
        fun x hx => h x (List.mem_cons_of_mem it hx)
      have hstep : processItems cmap (it :: rest) d ws =
          (if 2 ≤ (pySplitU name).length then
            processItems cmap rest
              (addToLang d ((pySplitU name).getD 1 "")
                { it with corr_mod := some (corrModOf cmap name) }) ws
          else processItems cmap rest d (ws ++ [skipWarnMsg it])) := by
        rw [processItems, hname]
      have hwf : wfItem it = decide (2 ≤ (pySplitU name).length) := by
        rw [wfItem, hname]
      have hconv : convItem cmap it = { it with corr_mod := some (corrModOf cmap name) } := by
        rw [convItem, hname]
      have hlang : langOf it = (pySplitU name).getD 1 "" := by
        rw [langOf, hname]
      by_cases htok : 2 ≤ (pySplitU name).length
      · rw [hstep, if_pos htok]
        obtain ⟨ws', d', hok, hperm, hkeys, hwarn⟩ :=
          ih (addToLang d ((pySplitU name).getD 1 "")
            { it with corr_mod := some (corrModOf cmap name) }) ws hrest
        refine ⟨ws', d', hok, ?_, ?_, ?_⟩
        · have hfilter : (it :: rest).filter wfItem = it :: rest.filter wfItem := by
            rw [List.filter_cons, if_pos (by rw [hwf]; simpa using htok)]
          rw [hfilter, List.map_cons, hconv]
          have hadd := allItems_addToLang ((pySplitU name).getD 1 "")
            { it with corr_mod := some (corrModOf cmap name) } d
          have h2 := hadd.append_right ((rest.filter wfItem).map (convItem cmap))
          have h3 := hperm.trans h2
          refine h3.trans ?_
          rw [List.append_assoc, List.singleton_append]
        · intro k hk
          rcases hkeys k hk with hk' | ⟨x, hx, hxw, hxl⟩
          · rcases keysOf_addToLang _ _ d k hk' with h' | h'
            · exact Or.inl h'
            · refine Or.inr ⟨it, List.mem_cons_self it rest, ?_, ?_⟩
              · rw [hwf]; simpa using htok
              · rw [hlang]; exact h'
          · exact Or.inr ⟨x, List.mem_cons_of_mem it hx, hxw, hxl⟩
        · intro x hx hxw
          rcases List.mem_cons.1 hx with h' | h'
          · subst h'
            rw [hwf] at hxw
            simp only [decide_eq_false_iff_not] at hxw
            exact absurd htok hxw
          · exact hwarn x h' hxw
      · rw [hstep, if_neg htok]
        obtain ⟨ws', d', hok, hperm, hkeys, hwarn⟩ := ih d (ws ++ [skipWarnMsg it]) hrest
        refine ⟨skipWarnMsg it :: ws', d', ?_, ?_, ?_, ?_⟩
        · rw [hok]
          congr 1
          rw [List.append_assoc, List.singleton_append]
        · have hfilter : (it :: rest).filter wfItem = rest.filter wfItem := by
            rw [List.filter_cons, if_neg (by rw [hwf]; simpa using htok)]
          rw [hfilter]
          exact hperm
        · intro k hk
          rcases hkeys k hk with hk' | ⟨x, hx, hxw, hxl⟩
          · exact Or.inl hk'
          · exact Or.inr ⟨x, List.mem_cons_of_mem it hx, hxw, hxl⟩
        · intro x hx hxw
          rcases List.mem_cons.1 hx with h' | h'
          · subst h'
            exact List.mem_cons_self _ _
          · exact List.mem_cons_of_mem _ (hwarn x h' hxw)

theorem processItems_raised (cmap : List (String × String)) :
    ∀ items d ws, (∃ it ∈ items, it.image_name = none) →
    processItems cmap items d ws = .raised "KeyError: 'image_name'" := by
  intro items
  induction items with
  | nil =>
    intro d ws h
    obtain ⟨it, hit, -⟩ := h
    simp at hit
  | cons it rest ih =>
    intro d ws h
    cases hname : it.image_name with
    | none => rw [processItems, hname]
    | some name =>
      obtain ⟨x, hx, hxn⟩ := h
      have hxrest : x ∈ rest := by
        rcases List.mem_cons.1 hx with h' | h'
        · subst h'; rw [hname] at hxn; exact absurd hxn (by simp)
        · exact h'
      have hstep : processItems cmap (it :: rest) d ws =
          (if 2 ≤ (pySplitU name).length then
            processItems cmap rest
              (addToLang d ((pySplitU name).getD 1 "")
                { it with corr_mod := some (corrModOf cmap name) }) ws
          else processItems cmap rest d (ws ++ [skipWarnMsg it])) := by
        rw [processItems, hname]
      rw [hstep]
      by_cases htok : 2 ≤ (pySplitU name).length
      · rw [if_pos htok]
        exact ih _ _ ⟨x, hxrest, hxn⟩
      · rw [if_neg htok]
        exact ih _ _ ⟨x, hxrest, hxn⟩

/-! ## Claim C2: without autojunk-disqualified elements the engine is the
reference greedy-matching-block algorithm

The bridge between the two is the leftmost-longest characterisation
`IsLL`: both the DP of `find_longest_match` (scanning chain ends) and the
reference start-position scan produce the block of maximal size, earliest
in `a` then in `b`, and such a block is unique. -/

theorem IsMatch_mono (a b : List Char) (alo ahi blo bhi alo' ahi' blo' bhi' : Nat)
    (bl : Block) (h : IsMatch a b alo' ahi' blo' bhi' bl)
    (h1 : alo ≤ alo') (h2 : ahi' ≤ ahi) (h3 : blo ≤ blo') (h4 : bhi' ≤ bhi) :
    IsMatch a b alo ahi blo bhi bl := by
  obtain ⟨g1, g2, g3, g4, g5⟩ := h
  exact ⟨by omega, by omega, by omega, by omega, g5⟩

theorem chain_to_match (a b : List Char) (alo blo bhi : Nat) (ahi : Nat) :
    ∀ i j, 1 ≤ chainLen a b alo blo bhi i j → i < ahi →
    IsMatch a b alo ahi blo bhi
      ⟨i + 1 - chainLen a b alo blo bhi i j,
       j + 1 - chainLen a b alo blo bhi i j,
       chainLen a b alo blo bhi i j⟩ := by
  intro i
  induction i using Nat.strong_induction_on with
  | _ i ih =>
    intro j hk hi
    have hc := chainLen_cond a b alo blo bhi i j hk
    obtain ⟨hc1, hc2, hc3, hc4, hc5, hc6⟩ := hc
    rw [chainLen_eq, if_pos ⟨hc1, hc2, hc3, hc4, hc5, hc6⟩] at hk ⊢
    by_cases hrec : alo < i ∧ blo < j
    · rw [if_pos hrec] at hk ⊢
      set k' := chainLen a b alo blo bhi (i - 1) (j - 1) with hk'
      by_cases hk'1 : 1 ≤ k'
      · have hIH := ih (i - 1) (by omega) (j - 1) hk'1 (by omega)
        rw [← hk'] at hIH
        obtain ⟨g1, g2, g3, g4, g5⟩ := hIH
        have hrow := chainLen_le_row a b alo blo bhi (i - 1) (j - 1)
        have hcol := chainLen_le_col a b alo blo bhi (i - 1) (j - 1)
        rw [← hk'] at hrow hcol
        refine ⟨by simp at g1 ⊢; omega, by simp at g2 ⊢; omega,
          by simp at g3 ⊢; omega, by simp at g4 ⊢; omega, ?_⟩
        intro t ht
        simp only [] at ht g5 ⊢
        by_cases htk : t < k'
        · have := g5 t (by omega)
          have e1 : i + 1 - (k' + 1) + t = i - 1 + 1 - k' + t := by omega
          have e2 : j + 1 - (k' + 1) + t = j - 1 + 1 - k' + t := by omega
          rw [e1, e2]
          exact this
        · have htk' : t = k' := by omega
          have e1 : i + 1 - (k' + 1) + t = i := by omega
          have e2 : j + 1 - (k' + 1) + t = j := by omega
          rw [e1, e2]
          exact hc5
      · have hk'0 : k' = 0 := by omega
        rw [hk'0]
        refine ⟨by simp; omega, by simp; omega, by simp; omega, by simp; omega, ?_⟩
        intro t ht
        simp only [] at ht ⊢
        have : t = 0 := by omega
        subst this
        have e1 : i + 1 - (0 + 1) + 0 = i := by omega
        have e2 : j + 1 - (0 + 1) + 0 = j := by omega
        rw [e1, e2]
        exact hc5
    · rw [if_neg hrec] at hk ⊢
      refine ⟨by simp; omega, by simp; omega, by simp; omega, by simp; omega, ?_⟩
      intro t ht
      simp only [] at ht ⊢
      have : t = 0 := by omega
      subst this
      have e1 : i + 1 - (0 + 1) + 0 = i := by omega
      have e2 : j + 1 - (0 + 1) + 0 = j := by omega
      rw [e1, e2]
      exact hc5

theorem match_to_chain (a b : List Char) (alo blo bhi : Nat) (ahi : Nat)
    (hpop : ∀ c, isPopular b c = false) (hb : bhi ≤ b.length) :
    ∀ s i j, IsMatch a b alo ahi blo bhi ⟨i, j, s⟩ → 1 ≤ s →
    s ≤ chainLen a b alo blo bhi (i + s - 1) (j + s - 1) := by
  intro s
  induction s with
  | zero => intro i j _ h; omega
  | succ s ihs =>
    intro i j hm h1
    obtain ⟨g1, g2, g3, g4, g5⟩ := hm
    simp only [] at g1 g2 g3 g4 g5
    have hcond : alo ≤ i + s ∧ blo ≤ j + s ∧ j + s < bhi ∧ j + s < b.length ∧
        getC a (i + s) = getC b (j + s) ∧ isPopular b (getC b (j + s)) = false := by
      refine ⟨by omega, by omega, by omega, by omega, g5 s (by omega), hpop _⟩
    have he1 : i + (s + 1) - 1 = i + s := by omega
    have he2 : j + (s + 1) - 1 = j + s := by omega
    rw [he1, he2, chainLen_eq, if_pos hcond]
    by_cases hs0 : s = 0
    · omega
    · have hsub : IsMatch a b alo ahi blo bhi ⟨i, j, s⟩ := by
        refine ⟨by simp; omega, by simp; omega, by simp; omega, by simp; omega, ?_⟩
        intro t ht
        simp only [] at ht ⊢
        exact g5 t (by omega)
      have := ihs i j hsub (by omega)
      have he3 : i + s - 1 + 1 = i + s := by omega
      rw [if_pos (by omega)]
      have he4 : i + s - 1 = i + (s - 1) := by omega
      have he5 : j + s - 1 = j + (s - 1) := by omega
      omega

theorem scan_isLL (a b : List Char) (alo ahi blo bhi : Nat)
    (hpop : ∀ c, isPopular b c = false) (hb : bhi ≤ b.length)
    (h1 : alo ≤ ahi) (h2 : blo ≤ bhi) :
    IsLL a b alo ahi blo bhi
      (outerLoop a b blo bhi alo (ahi - alo) (fun _ => 0) ⟨alo, blo, 0⟩) := by
  have hscan := scan_spec a b alo blo bhi ahi h1
  set st0 := outerLoop a b blo bhi alo (ahi - alo) (fun _ => 0) ⟨alo, blo, 0⟩ with hst0
  rcases hscan with ⟨hst, hz⟩ | ⟨i₀, j₀, hP, hk, hst, hmax, hfirst⟩
  · have hnm : ∀ bl, IsMatch a b alo ahi blo bhi bl → bl.size = 0 := by
      intro bl hbl
      by_contra hs
      have hs1 : 1 ≤ bl.size := by omega
      obtain ⟨g1, g2, g3, g4, g5⟩ := hbl
      have := match_to_chain a b alo blo bhi ahi hpop hb bl.size bl.i bl.j
        ⟨g1, g2, g3, g4, g5⟩ hs1
      have hrow : alo ≤ bl.i + bl.size - 1 ∧ bl.i + bl.size - 1 < ahi := by omega
      have := hz (bl.i + bl.size - 1) (bl.j + bl.size - 1) ⟨hrow.1, hrow.2⟩
      omega
    rw [hst]
    refine ⟨⟨le_refl _, by simpa using h1, le_refl _, by simpa using h2, ?_⟩,
      fun _ => ⟨rfl, rfl⟩, ?_, ?_⟩
    · intro t ht
      simp at ht
    · intro bl hbl
      simp [hnm bl hbl]
    · intro hsz
      simp at hsz
  · have hcond := chainLen_cond a b alo blo bhi i₀ j₀ hk
    have hrow := chainLen_le_row a b alo blo bhi i₀ j₀
    have hcol := chainLen_le_col a b alo blo bhi i₀ j₀
    obtain ⟨hP1, hP2⟩ := hP
    rw [hst]
    have hm := chain_to_match a b alo blo bhi ahi i₀ j₀ hk hP2
    refine ⟨hm, ?_, ?_, ?_⟩
    · intro hsz
      simp at hsz
      omega
    · intro bl hbl
      show bl.size ≤ chainLen a b alo blo bhi i₀ j₀
      by_cases hs : 1 ≤ bl.size
      · obtain ⟨g1, g2, g3, g4, g5⟩ := hbl
        have := match_to_chain a b alo blo bhi ahi hpop hb bl.size bl.i bl.j
          ⟨g1, g2, g3, g4, g5⟩ hs
        have := hmax (bl.i + bl.size - 1) (bl.j + bl.size - 1) ⟨by omega, by omega⟩
        omega
      · omega
    · intro hsz bl hbl hsize
      have hsz' : 1 ≤ chainLen a b alo blo bhi i₀ j₀ := hsz
      have hsize' : bl.size = chainLen a b alo blo bhi i₀ j₀ := hsize
      obtain ⟨g1, g2, g3, g4, g5⟩ := hbl
      have hchain := match_to_chain a b alo blo bhi ahi hpop hb bl.size bl.i bl.j
        ⟨g1, g2, g3, g4, g5⟩ (by omega)
      have hle := hmax (bl.i + bl.size - 1) (bl.j + bl.size - 1) ⟨by omega, by omega⟩
      have heq : chainLen a b alo blo bhi (bl.i + bl.size - 1) (bl.j + bl.size - 1)
          = chainLen a b alo blo bhi i₀ j₀ := by omega
      have hnrm : ¬ (bl.i + bl.size - 1 < i₀ ∨
          (bl.i + bl.size - 1 = i₀ ∧ bl.j + bl.size - 1 < j₀)) :=
        hfirst (bl.i + bl.size - 1) (bl.j + bl.size - 1) ⟨by omega, by omega⟩ heq
      push_neg at hnrm
      obtain ⟨hn1, hn2⟩ := hnrm
      rcases Nat.lt_or_ge i₀ (bl.i + bl.size - 1) with hlt | hge
      · left
        show i₀ + 1 - chainLen a b alo blo bhi i₀ j₀ < bl.i
        omega
      · have hie : bl.i + bl.size - 1 = i₀ := by omega
        have hje := hn2 hie
        right
        constructor
        · show i₀ + 1 - chainLen a b alo blo bhi i₀ j₀ = bl.i
          omega
        · show j₀ + 1 - chainLen a b alo blo bhi i₀ j₀ ≤ bl.j
          omega

theorem flm_isLL (a b : List Char) (alo ahi blo bhi : Nat)
    (hpop : ∀ c, isPopular b c = false) (hb : bhi ≤ b.length)
    (h1 : alo ≤ ahi) (h2 : blo ≤ bhi) :
    IsLL a b alo ahi blo bhi (findLongestMatch a b alo ahi blo bhi) := by
  have hLL := scan_isLL a b alo ahi blo bhi hpop hb h1 h2
  set st0 := outerLoop a b blo bhi alo (ahi - alo) (fun _ => 0) ⟨alo, blo, 0⟩ with hst0
  have hflm : findLongestMatch a b alo ahi blo bhi = st0 := by
    rw [findLongestMatch, ← hst0]
    have hleft : extendLeft a b alo blo st0 = st0 := by
      apply extendLeftAux_id
      intro hguard
      obtain ⟨hg1, hg2, hg3⟩ := hguard
      have hcomb : IsMatch a b alo ahi blo bhi
          ⟨st0.i - 1, st0.j - 1, st0.size + 1⟩ := by
        obtain ⟨m1, m2, m3, m4, m5⟩ := hLL.isMatch
        refine ⟨by simp; omega, by simp; omega, by simp; omega, by simp; omega, ?_⟩
        intro t ht
        simp only [] at ht ⊢
        by_cases ht0 : t = 0
        · subst ht0
          simpa using hg3
        · have e1 : st0.i - 1 + t = st0.i + (t - 1) := by omega
          have e2 : st0.j - 1 + t = st0.j + (t - 1) := by omega
          rw [e1, e2]
          exact m5 (t - 1) (by omega)
      have := hLL.maxSize _ hcomb
      simp at this
    have hright : extendRight a b ahi bhi st0 = st0 := by
      apply extendRightAux_id
      intro hguard
      obtain ⟨hg1, hg2, hg3⟩ := hguard
      have hcomb : IsMatch a b alo ahi blo bhi
          ⟨st0.i, st0.j, st0.size + 1⟩ := by
        obtain ⟨m1, m2, m3, m4, m5⟩ := hLL.isMatch
        refine ⟨by simp; omega, by simp; omega, by simp; omega, by simp; omega, ?_⟩
        intro t ht
        simp only [] at ht ⊢
        by_cases htl : t < st0.size
        · exact m5 t htl
        · have : t = st0.size := by omega
          subst this
          exact hg3
      have := hLL.maxSize _ hcomb
      simp at this
    rw [hleft, hright]
  rw [hflm]
  exact hLL

theorem commonExtAux_spec (a b : List Char) (ahi bhi : Nat) :
    ∀ fuel i j, ahi - i ≤ fuel →
    (∀ t < commonExtAux a b ahi bhi fuel i j, getC a (i + t) = getC b (j + t)) ∧
    (1 ≤ commonExtAux a b ahi bhi fuel i j →
      i + commonExtAux a b ahi bhi fuel i j ≤ ahi ∧
      j + commonExtAux a b ahi bhi fuel i j ≤ bhi) ∧
    (∀ k, (∀ t < k, i + t < ahi ∧ j + t < bhi ∧ getC a (i + t) = getC b (j + t)) →
      k ≤ commonExtAux a b ahi bhi fuel i j) := by
  intro fuel
  induction fuel with
  | zero =>
    intro i j hf
    rw [commonExtAux]
    refine ⟨by omega, by omega, ?_⟩
    intro k hk
    by_contra hk1
    have := hk 0 (by omega)
    omega
  | succ fuel ih =>
    intro i j hf
    rw [commonExtAux]
    by_cases hg : i < ahi ∧ j < bhi ∧ getC a i = getC b j
    · rw [if_pos hg]
      obtain ⟨e1, e2, e3⟩ := ih (i + 1) (j + 1) (by omega)
      refine ⟨?_, ?_, ?_⟩
      · intro t ht
        by_cases ht0 : t = 0
        · subst ht0
          simpa using hg.2.2
        · have := e1 (t - 1) (by omega)
          have h1 : i + 1 + (t - 1) = i + t := by omega
          have h2 : j + 1 + (t - 1) = j + t := by omega
          rw [h1, h2] at this
          exact this
      · intro h
        by_cases hz : 1 ≤ commonExtAux a b ahi bhi fuel (i + 1) (j + 1)
        · have := e2 hz
          omega
        · omega
      · intro k hk
        by_cases hk0 : k = 0
        · omega
        · have : k - 1 ≤ commonExtAux a b ahi bhi fuel (i + 1) (j + 1) := by
            apply e3
            intro t ht
            have := hk (t + 1) (by omega)
            have h1 : i + (t + 1) = i + 1 + t := by omega
            have h2 : j + (t + 1) = j + 1 + t := by omega
            rw [h1, h2] at this
            exact this
          omega
    · rw [if_neg hg]
      refine ⟨by omega, by omega, ?_⟩
      intro k hk
      by_contra hk1
      have := hk 0 (by omega)
      simp at this
      exact hg ⟨this.1, this.2.1, this.2.2⟩

theorem commonExt_spec (a b : List Char) (ahi bhi : Nat) (i j : Nat) :
    (∀ t < commonExt a b ahi bhi i j, getC a (i + t) = getC b (j + t)) ∧
    (1 ≤ commonExt a b ahi bhi i j →
      i + commonExt a b ahi bhi i j ≤ ahi ∧ j + commonExt a b ahi bhi i j ≤ bhi) ∧
    (∀ k, (∀ t < k, i + t < ahi ∧ j + t < bhi ∧ getC a (i + t) = getC b (j + t)) →
      k ≤ commonExt a b ahi bhi i j) :=
  commonExtAux_spec a b ahi bhi (ahi - i) i j (le_refl _)

theorem mem_rectPairs (alo ahi blo bhi : Nat) (h1 : alo ≤ ahi) (h2 : blo ≤ bhi)
    (i j : Nat) :
    (i, j) ∈ rectPairs alo ahi blo bhi ↔
      (alo ≤ i ∧ i < ahi ∧ blo ≤ j ∧ j < bhi) := by
  rw [rectPairs]
  simp only [List.mem_flatMap, List.mem_map, List.mem_range'_1]
  constructor
  · rintro ⟨x, ⟨hx1, hx2⟩, y, ⟨hy1, hy2⟩, hxy⟩
    simp only [Prod.mk.injEq] at hxy
    obtain ⟨rfl, rfl⟩ := hxy
    exact ⟨hx1, by omega, hy1, by omega⟩
  · rintro ⟨g1, g2, g3, g4⟩
    exact ⟨i, ⟨g1, by omega⟩, j, ⟨g3, by omega⟩, rfl⟩

theorem pairwise_rectPairs (alo ahi blo bhi : Nat) :
    List.Pairwise RM (rectPairs alo ahi blo bhi) := by
  rw [rectPairs, List.pairwise_flatMap]
  constructor
  · intro i hi
    rw [List.pairwise_map]
    apply (List.pairwise_lt_range' blo (bhi - blo)).imp
    intro j1 j2 h
    exact Or.inr ⟨rfl, h⟩
  · apply (List.pairwise_lt_range' alo (ahi - alo)).imp
    intro i1 i2 h x hx y hy
    rw [List.mem_map] at hx hy
    obtain ⟨j1, -, rfl⟩ := hx
    obtain ⟨j2, -, rfl⟩ := hy
    exact Or.inl h

theorem InvR_congr (a b : List Char) (alo ahi blo bhi : Nat)
    (P Q : Nat → Nat → Prop) (st : Block)
    (h : InvR a b alo ahi blo bhi P st) (hpq : ∀ i j, P i j ↔ Q i j) :
    InvR a b alo ahi blo bhi Q st := by
  rcases h with ⟨hst, hz⟩ | ⟨i₀, j₀, hP, h1, hst, hmax, hfirst⟩
  · exact Or.inl ⟨hst, fun i j hij => hz i j ((hpq i j).2 hij)⟩
  · exact Or.inr ⟨i₀, j₀, (hpq i₀ j₀).1 hP, h1, hst,
      fun i j hij => hmax i j ((hpq i j).2 hij),
      fun i j hij hv => hfirst i j ((hpq i j).2 hij) hv⟩

theorem refScan_step (a b : List Char) (ahi bhi : Nat)
    (ps : List (Nat × Nat)) (p : Nat × Nat) (st : Block) :
    refScan a b ahi bhi (p :: ps) st =
      refScan a b ahi bhi ps
        (if st.size < commonExt a b ahi bhi p.1 p.2 then
          ⟨p.1, p.2, commonExt a b ahi bhi p.1 p.2⟩ else st) := by
  obtain ⟨si, sj, sz⟩ := st
  rw [refScan]

theorem InvR_step (a b : List Char) (alo ahi blo bhi : Nat)
    (P : Nat → Nat → Prop) (st : Block) (r c : Nat)
    (hinv : InvR a b alo ahi blo bhi P st)
    (hbefore : ∀ p q, P p q → RM (p, q) (r, c)) :
    InvR a b alo ahi blo bhi (fun i j => P i j ∨ (i = r ∧ j = c))
      (if st.size < commonExt a b ahi bhi r c then
        ⟨r, c, commonExt a b ahi bhi r c⟩ else st) := by
  set k := commonExt a b ahi bhi r c with hk
  by_cases hlt : st.size < k
  · rw [if_pos hlt]
    right
    refine ⟨r, c, Or.inr ⟨rfl, rfl⟩, ?_, rfl, ?_, ?_⟩
    · rcases hinv with ⟨hst, hz⟩ | ⟨i₀, j₀, hP, h1, hst, hmax, hfirst⟩
      · have : st.size = 0 := by rw [hst]
        omega
      · have : 1 ≤ st.size := by rw [hst]; exact h1
        omega
    · intro i j hij
      rcases hij with hij | ⟨hi, hj⟩
      · rcases hinv with ⟨hst, hz⟩ | ⟨i₀, j₀, hP, h1, hst, hmax, hfirst⟩
        · rw [hz i j hij]; omega
        · have h2 := hmax i j hij
          have : st.size = commonExt a b ahi bhi i₀ j₀ := by rw [hst]
          omega
      · subst hi; subst hj; omega
    · intro i j hij hv
      rcases hij with hij | ⟨hi, hj⟩
      · exfalso
        rcases hinv with ⟨hst, hz⟩ | ⟨i₀, j₀, hP, h1, hst, hmax, hfirst⟩
        · have := hz i j hij
          have : st.size = 0 := by rw [hst]
          omega
        · have h2 := hmax i j hij
          have : st.size = commonExt a b ahi bhi i₀ j₀ := by rw [hst]
          omega
      · subst hi; subst hj
        intro hrm
        rcases hrm with h | ⟨h1, h2⟩ <;> omega
  · rw [if_neg hlt]
    rcases hinv with ⟨hst, hz⟩ | ⟨i₀, j₀, hP, h1, hst, hmax, hfirst⟩
    · left
      refine ⟨hst, fun i j hij => ?_⟩
      rcases hij with hij | ⟨hi, hj⟩
      · exact hz i j hij
      · subst hi; subst hj
        have : st.size = 0 := by rw [hst]
        omega
    · right
      refine ⟨i₀, j₀, Or.inl hP, h1, hst, fun i j hij => ?_, fun i j hij hv => ?_⟩
      · rcases hij with hij | ⟨hi, hj⟩
        · exact hmax i j hij
        · subst hi; subst hj
          have : st.size = commonExt a b ahi bhi i₀ j₀ := by rw [hst]
          omega
      · rcases hij with hij | ⟨hi, hj⟩
        · exact hfirst i j hij hv
        · subst hi; subst hj
          have hb := hbefore i₀ j₀ hP
          intro hrm
          rcases hrm with h | ⟨h1', h2'⟩ <;> rcases hb with h'' | ⟨h1'', h2''⟩ <;> omega

theorem refScan_spec (a b : List Char) (alo ahi blo bhi : Nat) :
    ∀ (cells : List (Nat × Nat)) (P : Nat → Nat → Prop) (st : Block),
    InvR a b alo ahi blo bhi P st →
    (∀ p ∈ cells, ∀ q1 q2, P q1 q2 → RM (q1, q2) p) →
    List.Pairwise RM cells →
    InvR a b alo ahi blo bhi (fun i j => P i j ∨ (i, j) ∈ cells)
      (refScan a b ahi bhi cells st) := by
  intro cells
  induction cells with
  | nil =>
    intro P st hinv hbefore hpw
    rw [refScan]
    apply InvR_congr a b alo ahi blo bhi P _ _ hinv
    intro i j
    simp
  | cons p ps ih =>
    intro P st hinv hbefore hpw
    rw [refScan_step]
    have hstep := InvR_step a b alo ahi blo bhi P st p.1 p.2 hinv
      (fun q1 q2 hq => hbefore p (by simp) q1 q2 hq)
    rw [List.pairwise_cons] at hpw
    have hnext := ih (fun i j => P i j ∨ (i = p.1 ∧ j = p.2)) _ hstep
      (fun q hq q1 q2 hq12 => by
        rcases hq12 with hq12 | ⟨rfl, rfl⟩
        · exact hbefore q (by simp [hq]) q1 q2 hq12
        · simpa using hpw.1 q hq)
      hpw.2
    apply InvR_congr a b alo ahi blo bhi _ _ _ hnext
    intro i j
    constructor
    · rintro (⟨h | ⟨rfl, rfl⟩⟩ | h)
      · exact Or.inl h
      · exact Or.inr (by simp)
      · exact Or.inr (by simp [h])
    · rintro (h | h)
      · exact Or.inl (Or.inl h)
      · rcases List.mem_cons.1 h with h | h
        · refine Or.inl (Or.inr ?_)
          have h1 : i = p.1 := by rw [← h]
          have h2 : j = p.2 := by rw [← h]
          exact ⟨h1, h2⟩
        · exact Or.inr h

theorem match_le_commonExt (a b : List Char) (alo ahi blo bhi : Nat) (bl : Block)
    (hbl : IsMatch a b alo ahi blo bhi bl) :
    bl.size ≤ commonExt a b ahi bhi bl.i bl.j := by
  obtain ⟨g1, g2, g3, g4, g5⟩ := hbl
  exact (commonExt_spec a b ahi bhi bl.i bl.j).2.2 bl.size
    (fun t ht => ⟨by omega, by omega, g5 t ht⟩)

theorem refLM_isLL (a b : List Char) (alo ahi blo bhi : Nat)
    (h1 : alo ≤ ahi) (h2 : blo ≤ bhi) :
    IsLL a b alo ahi blo bhi (refLongestMatch a b alo ahi blo bhi) := by
  have hinv0 : InvR a b alo ahi blo bhi (fun _ _ => False) ⟨alo, blo, 0⟩ :=
    Or.inl ⟨rfl, fun i j hij => hij.elim⟩
  have hscan := refScan_spec a b alo ahi blo bhi (rectPairs alo ahi blo bhi)
    (fun _ _ => False) ⟨alo, blo, 0⟩ hinv0
    (fun p _ q1 q2 hq => hq.elim) (pairwise_rectPairs alo ahi blo bhi)
  rw [refLongestMatch]
  rcases hscan with ⟨hst, hz⟩ | ⟨i₀, j₀, hP, hk1, hst, hmax, hfirst⟩
  · rw [hst]
    refine ⟨⟨le_refl _, by simpa using h1, le_refl _, by simpa using h2, ?_⟩,
      fun _ => ⟨rfl, rfl⟩, ?_, ?_⟩
    · intro t ht
      simp at ht
    · intro bl hbl
      by_contra hs
      have hs1 : 1 ≤ bl.size := by
        simp only [] at hs
        omega
      obtain ⟨g1, g2, g3, g4, g5⟩ := hbl
      have hmem : (bl.i, bl.j) ∈ rectPairs alo ahi blo bhi :=
        (mem_rectPairs alo ahi blo bhi h1 h2 bl.i bl.j).2
          ⟨g1, by omega, g3, by omega⟩
      have hzero := hz bl.i bl.j (Or.inr hmem)
      have hle := match_le_commonExt a b alo ahi blo bhi bl ⟨g1, g2, g3, g4, g5⟩
      omega
    · intro hsz
      simp at hsz
  · rcases hP with hP | hP
    · exact hP.elim
    obtain ⟨hi1, hi2, hj1, hj2⟩ := (mem_rectPairs alo ahi blo bhi h1 h2 i₀ j₀).1 hP
    rw [hst]
    obtain ⟨e1, e2, e3⟩ := commonExt_spec a b ahi bhi i₀ j₀
    obtain ⟨eb1, eb2⟩ := e2 hk1
    refine ⟨⟨hi1, eb1, hj1, eb2, ?_⟩, ?_, ?_, ?_⟩
    · intro t ht
      exact e1 t ht
    · intro hz0
      simp only [] at hz0
      omega
    · intro bl hbl
      show bl.size ≤ commonExt a b ahi bhi i₀ j₀
      by_cases hs : 1 ≤ bl.size
      · obtain ⟨g1, g2, g3, g4, g5⟩ := hbl
        have hmem : (bl.i, bl.j) ∈ rectPairs alo ahi blo bhi :=
          (mem_rectPairs alo ahi blo bhi h1 h2 bl.i bl.j).2
            ⟨g1, by omega, g3, by omega⟩
        have hle := match_le_commonExt a b alo ahi blo bhi bl ⟨g1, g2, g3, g4, g5⟩
        have := hmax bl.i bl.j (Or.inr hmem)
        omega
      · omega
    · intro hsz bl hbl hbsz
      have hbsz' : bl.size = commonExt a b ahi bhi i₀ j₀ := hbsz
      have hs : 1 ≤ bl.size := by omega
      obtain ⟨g1, g2, g3, g4, g5⟩ := hbl
      have hmem : (bl.i, bl.j) ∈ rectPairs alo ahi blo bhi :=
        (mem_rectPairs alo ahi blo bhi h1 h2 bl.i bl.j).2
          ⟨g1, by omega, g3, by omega⟩
      have hle := match_le_commonExt a b alo ahi blo bhi bl ⟨g1, g2, g3, g4, g5⟩
      have hub := hmax bl.i bl.j (Or.inr hmem)
      have heq : commonExt a b ahi bhi bl.i bl.j = commonExt a b ahi bhi i₀ j₀ := by
        omega
      have hnrm : ¬ (bl.i < i₀ ∨ (bl.i = i₀ ∧ bl.j < j₀)) :=
        hfirst bl.i bl.j (Or.inr hmem) heq
      show i₀ < bl.i ∨ (i₀ = bl.i ∧ j₀ ≤ bl.j)
      omega

theorem isLL_unique (a b : List Char) (alo ahi blo bhi : Nat) (m₁ m₂ : Block)
    (h₁ : IsLL a b alo ahi blo bhi m₁) (h₂ : IsLL a b alo ahi blo bhi m₂) :
    m₁ = m₂ := by
  have hs1 := h₁.maxSize m₂ h₂.isMatch
  have hs2 := h₂.maxSize m₁ h₁.isMatch
  have hss : m₁.size = m₂.size := by omega
  by_cases hz : m₁.size = 0
  · obtain ⟨e1, e2⟩ := h₁.zero hz
    obtain ⟨f1, f2⟩ := h₂.zero (by omega)
    have hI : m₁.i = m₂.i := by omega
    have hJ : m₁.j = m₂.j := by omega
    obtain ⟨i1, j1, s1⟩ := m₁
    obtain ⟨i2, j2, s2⟩ := m₂
    rw [Block.mk.injEq]
    exact ⟨hI, hJ, hss⟩
  · have hlex1 := h₁.lex (by omega) m₂ h₂.isMatch hss.symm
    have hlex2 := h₂.lex (by omega) m₁ h₁.isMatch hss
    have hI : m₁.i = m₂.i := by omega
    have hJ : m₁.j = m₂.j := by omega
    obtain ⟨i1, j1, s1⟩ := m₁
    obtain ⟨i2, j2, s2⟩ := m₂
    rw [Block.mk.injEq]
    exact ⟨hI, hJ, hss⟩

theorem blocks_eq (a b : List Char) (hpop : ∀ c, isPopular b c = false) :
    ∀ fuel alo ahi blo bhi, alo ≤ ahi → blo ≤ bhi → bhi ≤ b.length →
    matchingBlocksAux a b fuel alo ahi blo bhi =
      refBlocksAux a b fuel alo ahi blo bhi := by
  intro fuel
  induction fuel with
  | zero =>
    intro alo ahi blo bhi _ _ _
    rw [matchingBlocksAux, refBlocksAux]
  | succ fuel ih =>
    intro alo ahi blo bhi h1 h2 hb
    have hLL1 := flm_isLL a b alo ahi blo bhi hpop hb h1 h2
    have hLL2 := refLM_isLL a b alo ahi blo bhi h1 h2
    have hm : findLongestMatch a b alo ahi blo bhi =
        refLongestMatch a b alo ahi blo bhi :=
      isLL_unique a b alo ahi blo bhi _ _ hLL1 hLL2
    simp only [matchingBlocksAux, refBlocksAux]
    rw [hm]
    set m := refLongestMatch a b alo ahi blo bhi with hmr
    obtain ⟨g1, g2, g3, g4, g5⟩ := hLL2.isMatch
    by_cases hz : m.size = 0
    · rw [if_pos hz, if_pos hz]
    · rw [if_neg hz, if_neg hz]
      have hleft : (if alo < m.i ∧ blo < m.j then
          matchingBlocksAux a b fuel alo m.i blo m.j else []) =
          (if alo < m.i ∧ blo < m.j then
          refBlocksAux a b fuel alo m.i blo m.j else []) := by
        by_cases hc : alo < m.i ∧ blo < m.j
        · rw [if_pos hc, if_pos hc, ih alo m.i blo m.j (by omega) (by omega)
            (by omega)]
        · rw [if_neg hc, if_neg hc]
      have hright : (if m.i + m.size < ahi ∧ m.j + m.size < bhi then
          matchingBlocksAux a b fuel (m.i + m.size) ahi (m.j + m.size) bhi
          else []) =
          (if m.i + m.size < ahi ∧ m.j + m.size < bhi then
          refBlocksAux a b fuel (m.i + m.size) ahi (m.j + m.size) bhi else []) := by
        by_cases hc : m.i + m.size < ahi ∧ m.j + m.size < bhi
        · rw [if_pos hc, if_pos hc, ih (m.i + m.size) ahi (m.j + m.size) bhi
            (by omega) (by omega) (by omega)]
        · rw [if_neg hc, if_neg hc]
      rw [hleft, hright]

theorem notAdj_left (a b : List Char) (alo ahi blo bhi : Nat) (m bl : Block)
    (hLL : IsLL a b alo ahi blo bhi m) (_ : 1 ≤ m.size)
    (hbl : IsMatch a b alo m.i blo m.j bl) (hbs : 1 ≤ bl.size) :
    NotAdj bl m := by
  rintro ⟨hadj1, hadj2⟩
  obtain ⟨g1, g2, g3, g4, g5⟩ := hLL.isMatch
  obtain ⟨f1, f2, f3, f4, f5⟩ := hbl
  have hcomb : IsMatch a b alo ahi blo bhi ⟨bl.i, bl.j, bl.size + m.size⟩ := by
    refine ⟨by simp; omega, by simp; omega, by simp; omega, by simp; omega, ?_⟩
    intro t ht
    simp only [] at ht ⊢
    by_cases htb : t < bl.size
    · exact f5 t htb
    · have e1 : bl.i + t = m.i + (t - bl.size) := by omega
      have e2 : bl.j + t = m.j + (t - bl.size) := by omega
      rw [e1, e2]
      exact g5 (t - bl.size) (by omega)
  have := hLL.maxSize _ hcomb
  simp only [] at this
  omega

theorem notAdj_right (a b : List Char) (alo ahi blo bhi : Nat) (m bl : Block)
    (hLL : IsLL a b alo ahi blo bhi m) (_ : 1 ≤ m.size)
    (hbl : IsMatch a b (m.i + m.size) ahi (m.j + m.size) bhi bl)
    (hbs : 1 ≤ bl.size) :
    NotAdj m bl := by
  rintro ⟨hadj1, hadj2⟩
  obtain ⟨g1, g2, g3, g4, g5⟩ := hLL.isMatch
  obtain ⟨f1, f2, f3, f4, f5⟩ := hbl
  have hcomb : IsMatch a b alo ahi blo bhi ⟨m.i, m.j, m.size + bl.size⟩ := by
    refine ⟨by simp; omega, by simp; omega, by simp; omega, by simp; omega, ?_⟩
    intro t ht
    simp only [] at ht ⊢
    by_cases htm : t < m.size
    · exact g5 t htm
    · have e1 : m.i + t = bl.i + (t - m.size) := by omega
      have e2 : m.j + t = bl.j + (t - m.size) := by omega
      rw [e1, e2]
      exact f5 (t - m.size) (by omega)
  have := hLL.maxSize _ hcomb
  simp only [] at this
  omega

theorem refBlocksAux_props (a b : List Char) :
    ∀ fuel alo ahi blo bhi, alo ≤ ahi → blo ≤ bhi →
    (∀ bl ∈ refBlocksAux a b fuel alo ahi blo bhi,
        IsMatch a b alo ahi blo bhi bl ∧ 1 ≤ bl.size) ∧
    List.Chain' NotAdj (refBlocksAux a b fuel alo ahi blo bhi) := by
  intro fuel
  induction fuel with
  | zero =>
    intro alo ahi blo bhi _ _
    rw [refBlocksAux]
    exact ⟨fun bl hbl => by simp at hbl, by simp⟩
  | succ fuel ih =>
    intro alo ahi blo bhi h1 h2
    have hLL := refLM_isLL a b alo ahi blo bhi h1 h2
    simp only [refBlocksAux]
    set m := refLongestMatch a b alo ahi blo bhi with hmr
    by_cases hz : m.size = 0
    · rw [if_pos hz]
      exact ⟨fun bl hbl => by simp at hbl, by simp⟩
    · rw [if_neg hz]
      have hms : 1 ≤ m.size := by omega
      obtain ⟨g1, g2, g3, g4, g5⟩ := hLL.isMatch
      set L := (if alo < m.i ∧ blo < m.j then
        refBlocksAux a b fuel alo m.i blo m.j else []) with hL
      set R := (if m.i + m.size < ahi ∧ m.j + m.size < bhi then
        refBlocksAux a b fuel (m.i + m.size) ahi (m.j + m.size) bhi else [])
        with hR
      have hLprops : (∀ bl ∈ L, IsMatch a b alo m.i blo m.j bl ∧ 1 ≤ bl.size) ∧
          List.Chain' NotAdj L := by
        rw [hL]
        by_cases hc : alo < m.i ∧ blo < m.j
        · rw [if_pos hc]
          exact ih alo m.i blo m.j (by omega) (by omega)
        · rw [if_neg hc]
          exact ⟨fun bl hbl => by simp at hbl, by simp⟩
      have hRprops : (∀ bl ∈ R,
            IsMatch a b (m.i + m.size) ahi (m.j + m.size) bhi bl ∧
            1 ≤ bl.size) ∧
          List.Chain' NotAdj R := by
        rw [hR]
        by_cases hc : m.i + m.size < ahi ∧ m.j + m.size < bhi
        · rw [if_pos hc]
          exact ih (m.i + m.size) ahi (m.j + m.size) bhi (by omega) (by omega)
        · rw [if_neg hc]
          exact ⟨fun bl hbl => by simp at hbl, by simp⟩
      constructor
      · intro bl hbl
        rw [List.mem_append] at hbl
        rcases hbl with hbl | hbl
        · obtain ⟨hm1, hm2⟩ := hLprops.1 bl hbl
          exact ⟨IsMatch_mono a b alo ahi blo bhi alo m.i blo m.j bl hm1
            (le_refl _) (by omega) (le_refl _) (by omega), hm2⟩
        · rcases List.mem_cons.1 hbl with hbl | hbl
          · rw [hbl]
            exact ⟨⟨g1, g2, g3, g4, g5⟩, hms⟩
          · obtain ⟨hm1, hm2⟩ := hRprops.1 bl hbl
            exact ⟨IsMatch_mono a b alo ahi blo bhi (m.i + m.size) ahi
              (m.j + m.size) bhi bl hm1 (by omega) (le_refl _) (by omega)
              (le_refl _), hm2⟩
      · rw [List.chain'_append]
        refine ⟨hLprops.2, ?_, ?_⟩
        · rw [List.chain'_cons']
          refine ⟨?_, hRprops.2⟩
          intro y hy
          have hy' : y ∈ R := List.mem_of_mem_head? hy
          obtain ⟨hm1, hm2⟩ := hRprops.1 y hy'
          exact notAdj_right a b alo ahi blo bhi m y hLL hms hm1 hm2
        · intro x hx y hy
          have hx' : x ∈ L := List.mem_of_mem_getLast? hx
          have hy' : y = m := by
            simp at hy
            exact hy.symm
          rw [hy']
          obtain ⟨hm1, hm2⟩ := hLprops.1 x hx'
          exact notAdj_left a b alo ahi blo bhi m x hLL hms hm1 hm2

theorem collapse_emit :
    ∀ (L : List Block) (i1 j1 k1 : Nat), 1 ≤ k1 →
    (∀ bl ∈ L, 1 ≤ bl.size) →
    List.Chain' NotAdj (⟨i1, j1, k1⟩ :: L) →
    collapseBlocks i1 j1 k1 L = ⟨i1, j1, k1⟩ :: L := by
  intro L
  induction L with
  | nil =>
    intro i1 j1 k1 hk _ _
    rw [collapseBlocks, if_pos (by omega)]
  | cons bl rest ihL =>
    intro i1 j1 k1 hk hsz hch
    rw [List.chain'_cons'] at hch
    have hnadj : NotAdj ⟨i1, j1, k1⟩ bl := hch.1 bl (by simp)
    have hnadj' : ¬ (i1 + k1 = bl.i ∧ j1 + k1 = bl.j) := hnadj
    rw [collapseBlocks, if_neg hnadj', if_pos (by omega)]
    have hrest : collapseBlocks bl.i bl.j bl.size rest = bl :: rest := by
      have hch2 : List.Chain' NotAdj (⟨bl.i, bl.j, bl.size⟩ :: rest) := hch.2
      have := ihL bl.i bl.j bl.size (hsz bl (by simp))
        (fun x hx => hsz x (by simp [hx])) hch2
      rw [this]
    rw [hrest]
    rfl

theorem collapse_id (L : List Block) (hsz : ∀ bl ∈ L, 1 ≤ bl.size)
    (hch : List.Chain' NotAdj L) :
    collapseBlocks 0 0 0 L = L := by
  cases L with
  | nil => rw [collapseBlocks, if_neg (by omega)]
  | cons bl rest =>
    rw [collapseBlocks]
    by_cases hadj : 0 + 0 = bl.i ∧ 0 + 0 = bl.j
    · rw [if_pos hadj]
      have h0 : (⟨0, 0, 0 + bl.size⟩ : Block) = bl := by
        obtain ⟨hi, hj⟩ := hadj
        obtain ⟨bi, bj, bs⟩ := bl
        have hi' : 0 + 0 = bi := hi
        have hj' : 0 + 0 = bj := hj
        rw [Block.mk.injEq]
        refine ⟨?_, ?_, ?_⟩
        · show (0 : Nat) = bi
          omega
        · show (0 : Nat) = bj
          omega
        · show 0 + bs = bs
          omega
      have hch0 : List.Chain' NotAdj ((⟨0, 0, 0 + bl.size⟩ : Block) :: rest) := by
        rw [h0]
        exact hch
      have := collapse_emit rest 0 0 (0 + bl.size)
        (by have := hsz bl (by simp); omega)
        (fun x hx => hsz x (by simp [hx])) hch0
      rw [this, h0]
    · rw [if_neg hadj, if_neg (by omega)]
      have hch2 : List.Chain' NotAdj ((⟨bl.i, bl.j, bl.size⟩ : Block) :: rest) := hch
      have := collapse_emit rest bl.i bl.j bl.size (hsz bl (by simp))
        (fun x hx => hsz x (by simp [hx])) hch2
      rw [this]
      rfl

theorem getOpcodes_eq_refOpcodes (a b : List Char)
    (hpop : ∀ c, isPopular b c = false) :
    getOpcodes a b = refOpcodes a b := by
  rw [getOpcodes, refOpcodes, getMatchingBlocks]
  rw [blocks_eq a b hpop a.length 0 a.length 0 b.length (Nat.zero_le _)
    (Nat.zero_le _) (le_refl _)]
  have hprops := refBlocksAux_props a b a.length 0 a.length 0 b.length
    (Nat.zero_le _) (Nat.zero_le _)
  rw [collapse_id _ (fun bl hbl => (hprops.1 bl hbl).2) hprops.2]

/-! ## Supporting lemmas for the escaping claim -/

theorem pieces_flatten (t2 : List Char) (op : Opcode) :
    (pieces t2 op).flatten = renderOpcode t2 op := by
  obtain ⟨tg, i1, i2, j1, j2⟩ := op
  cases tg <;> simp [pieces, renderOpcode]

theorem chd_pieces (t1 t2 : List Char) :
    createHighlightedDiff t1 t2 =
      ((getOpcodes t1 t2).flatMap (pieces t2)).flatten := by
  rw [createHighlightedDiff]
  have hgen : ∀ ops : List Opcode,
      ((ops.flatMap (pieces t2)).flatten) = ((ops.map (renderOpcode t2)).flatten) := by
    intro ops
    induction ops with
    | nil => rfl
    | cons op rest ih =>
      rw [List.flatMap_cons, List.flatten_append, ih, List.map_cons,
        List.flatten_cons, pieces_flatten]
  rw [hgen]

/-! ## The ten claims -/

/-- C1: for every pair of character sequences `before` and `after`,
concatenating in order the text of every DiffSpan the engine produces for
`(before, after)` — `equal` spans unchanged, `insert`/`replace` spans
changed, `delete` contributing nothing — reconstructs `after` exactly. -/
theorem C1_reconstruction (before after : List Char) :
    ((diffSpans before after).map DiffSpan.text).flatten = after :=
  diffSpans_reconstruct before after

/-- C2 (amended): when no element of `after` is disqualified by difflib's
autojunk heuristic (in particular whenever `after` is shorter than 200
characters), the engine produces exactly the opcode list of the reference
greedy-matching-block algorithm: longest common block first — scanning
start positions left-to-right and keeping the first strict maximum — then
recursion on the remainders before and after the match.  The unamended
claim (all inputs) is refuted by `C2_autojunk_counterexample`. -/
theorem C2_tie_break (before after : List Char)
    (hpop : ∀ c, isPopular after c = false) :
    getOpcodes before after = refOpcodes before after :=
  getOpcodes_eq_refOpcodes before after hpop

theorem C2_tie_break_witness :
    (∀ c, isPopular "axbx".data c = false) ∧
    getOpcodes "abxab".data "axbx".data = refOpcodes "abxab".data "axbx".data :=
  ⟨fun _ => rfl, C2_tie_break "abxab".data "axbx".data (fun _ => rfl)⟩

set_option maxRecDepth 8000 in
/-- C2 counterexample: for `before = "ab"` and `after = 100 × 'a'` followed
by `100 × 'b'`, every character of `after` is autojunk-popular (length 200,
each character occurring 100 > 200/100 + 1 times), so the engine finds no
match at all and emits a single `replace`, while the reference greedy
algorithm matches both characters of `before`.  The engine therefore does
not pick the reference alignment on all inputs. -/
theorem C2_autojunk_counterexample :
    getOpcodes "ab".data (List.replicate 100 'a' ++ List.replicate 100 'b') ≠
      refOpcodes "ab".data (List.replicate 100 'a' ++ List.replicate 100 'b') := by
  decide

/-- C3: diffing any sequence `s` against itself yields exactly one
UNCHANGED span carrying `s` itself (and the empty output when `s` is
empty); no CHANGED span is produced. -/
theorem C3_identity (s : List Char) :
    diffSpans s s = if s.isEmpty then [] else [⟨.unchanged, s⟩] :=
  diffSpans_self s

/-- C4: for `before = "helo world"` and `after = "hello world"`, the spans
reconstruct `after` and the total number of characters carried by CHANGED
spans is exactly 1. -/
theorem C4_scenario_hello :
    ((diffSpans "helo world".data "hello world".data).map DiffSpan.text).flatten
        = "hello world".data ∧
    changedCount (diffSpans "helo world".data "hello world".data) = 1 := by
  constructor
  · exact diffSpans_reconstruct _ _
  · decide

/-- C5: an empty `before` against a non-empty `s` yields exactly one
CHANGED span carrying `s` (and no span at all when `s` is empty, since
`diffSpans [] [] = []` is the `s = []` case of `diffSpans s [] = []`); an
empty `after` always yields the empty span sequence, and
`create_highlighted_diff` then returns the empty string. -/
theorem C5_empty_inputs (s : List Char) :
    (s ≠ [] → diffSpans [] s = [⟨.changed, s⟩]) ∧
    diffSpans s [] = [] ∧
    createHighlightedDiff s [] = [] := by
  refine ⟨?_, diffSpans_after_nil s, chd_after_nil s⟩
  intro hs
  rw [diffSpans_before_nil, if_neg (by simpa using hs)]

theorem C5_empty_inputs_witness :
    diffSpans [] "x".data = [⟨.changed, "x".data⟩] ∧
    diffSpans "x".data [] = [] ∧
    createHighlightedDiff "x".data [] = [] :=
  ⟨(C5_empty_inputs "x".data).1 (by decide),
   (C5_empty_inputs "x".data).2.1,
   (C5_empty_inputs "x".data).2.2⟩

/-- C6: the output of `create_highlighted_diff` decomposes into chunks,
each of which is either escaped content — containing no raw `<` or `>`,
and whose entity-unescaping recovers the original text, so `&` occurs only
as the head of an escape sequence — or exactly one of the two literal
highlight markers `<mark>` and `</mark>`, which are never escaped. -/
theorem C6_escaping_safety (before after : List Char) :
    ∃ chunks : List (List Char),
      createHighlightedDiff before after = chunks.flatten ∧
      ∀ ch ∈ chunks,
        (∃ s, ch = htmlEscape s ∧ '<' ∉ ch ∧ '>' ∉ ch ∧ unescapeHtml ch = s) ∨
        ch = "<mark>".data ∨ ch = "</mark>".data := by
  refine ⟨(getOpcodes before after).flatMap (pieces after),
    chd_pieces before after, ?_⟩
  intro ch hch
  rw [List.mem_flatMap] at hch
  obtain ⟨op, -, hop⟩ := hch
  obtain ⟨tg, i1, i2, j1, j2⟩ := op
  cases tg with
  | equal =>
    have he : ch = htmlEscape (slice after j1 j2) := by
      simpa [pieces] using hop
    refine Or.inl ⟨slice after j1 j2, he, ?_, ?_, ?_⟩
    · rw [he]; exact (htmlEscape_no_markup _).1
    · rw [he]; exact (htmlEscape_no_markup _).2
    · rw [he]; exact unescape_escape _
  | insert =>
    have he : ch = "<mark>".data ∨ ch = htmlEscape (slice after j1 j2) ∨
        ch = "</mark>".data := by
      simpa [pieces] using hop
    rcases he with he | he | he
    · exact Or.inr (Or.inl he)
    · refine Or.inl ⟨slice after j1 j2, he, ?_, ?_, ?_⟩
      · rw [he]; exact (htmlEscape_no_markup _).1
      · rw [he]; exact (htmlEscape_no_markup _).2
      · rw [he]; exact unescape_escape _
    · exact Or.inr (Or.inr he)
  | replace =>
    have he : ch = "<mark>".data ∨ ch = htmlEscape (slice after j1 j2) ∨
        ch = "</mark>".data := by
      simpa [pieces] using hop
    rcases he with he | he | he
    · exact Or.inr (Or.inl he)
    · refine Or.inl ⟨slice after j1 j2, he, ?_, ?_, ?_⟩
      · rw [he]; exact (htmlEscape_no_markup _).1
      · rw [he]; exact (htmlEscape_no_markup _).2
      · rw [he]; exact unescape_escape _
    · exact Or.inr (Or.inr he)
  | delete =>
    simp [pieces] at hop

/-- C7: with the primary JSON source absent, `load_data` returns the fatal
error naming the missing path whatever the CSV holds; with only the CSV
absent (and every item carrying its identifier, so no `KeyError` fires),
loading succeeds, the warning list starts with the CSV warning naming the
missing path, and every loaded record's `corr_mod` is `"N/A"`. -/
theorem C7_missing_sources (items : List Item) (jp cp : String)
    (h : ∀ it ∈ items, it.image_name ≠ none) :
    (∀ csvOpt, load_data none csvOpt jp cp = .fatal (jsonErrorMsg jp)) ∧
    (∃ ws' d', load_data (some items) none jp cp = .ok (csvWarnMsg cp :: ws') d' ∧
      ∀ x ∈ allItems d', x.corr_mod = some "N/A") := by
  constructor
  · intro csvOpt
    rfl
  · obtain ⟨ws', d', hok, hperm, hkeys, hwarn⟩ :=
      processItems_spec [] items [] [csvWarnMsg cp] h
    refine ⟨ws', d', hok, ?_⟩
    intro x hx
    have hx2 : x ∈ allItems ([] : List (String × List Item)) ++
        (items.filter wfItem).map (convItem []) := hperm.subset hx
    have hx3 : x ∈ (items.filter wfItem).map (convItem []) := by
      simpa [allItems] using hx2
    rw [List.mem_map] at hx3
    obtain ⟨y, hy, rfl⟩ := hx3
    rw [List.mem_filter] at hy
    cases hyn : y.image_name with
    | none =>
      exfalso
      have : wfItem y = false := by rw [wfItem, hyn]
      rw [this] at hy
      exact absurd hy.2 (by simp)
    | some n =>
      rw [convItem, hyn]
      rfl

theorem C7_missing_sources_witness :
    (∀ csvOpt, load_data none csvOpt "j" "c" = .fatal (jsonErrorMsg "j")) ∧
    (∃ ws' d', load_data (some [⟨some "x_bn_1", "", "", "", none⟩]) none "j" "c"
        = .ok (csvWarnMsg "c" :: ws') d' ∧
      ∀ x ∈ allItems d', x.corr_mod = some "N/A") :=
  C7_missing_sources [⟨some "x_bn_1", "", "", "", none⟩] "j" "c" (by decide)

/-- C8: provided every entry carries its identifier (no `KeyError`), the
load always succeeds; each entry whose `image_name` has fewer than two
underscore-separated tokens is skipped with its per-record warning in the
returned warning list, and the loaded records are exactly the well-formed
entries (each with its `corr_mod` filled in), so a malformed identifier
never aborts the load nor drops a well-formed record. -/
theorem C8_skip_malformed (items : List Item) (pairs : List (String × String))
    (jp cp : String) (h : ∀ it ∈ items, it.image_name ≠ none) :
    ∃ ws d, load_data (some items) (some pairs) jp cp = .ok ws d ∧
      List.Perm (allItems d) ((items.filter wfItem).map (convItem pairs)) ∧
      ∀ it ∈ items, wfItem it = false → skipWarnMsg it ∈ ws := by
  obtain ⟨ws', d', hok, hperm, hkeys, hwarn⟩ :=
    processItems_spec pairs items [] [] h
  refine ⟨[] ++ ws', d', hok, ?_, ?_⟩
  · simpa [allItems] using hperm
  · intro it hit hw
    have := hwarn it hit hw
    simpa using this

theorem C8_skip_malformed_witness :
    ∃ ws d, load_data (some [⟨some "nounderscore", "", "", "", none⟩,
        ⟨some "x_bn_1", "", "", "", none⟩]) (some []) "j" "c" = .ok ws d ∧
      List.Perm (allItems d)
        (([(⟨some "nounderscore", "", "", "", none⟩ : Item),
          ⟨some "x_bn_1", "", "", "", none⟩].filter wfItem).map (convItem [])) ∧
      ∀ it ∈ [(⟨some "nounderscore", "", "", "", none⟩ : Item),
          ⟨some "x_bn_1", "", "", "", none⟩],
        wfItem it = false → skipWarnMsg it ∈ ws :=
  C8_skip_malformed _ [] "j" "c" (by decide)

/-- C9 (amended): `load_data` performs no validation of language codes and
no de-duplication — the unamended claim is refuted by
`C9_no_validation_counterexample` — but it preserves these properties when
the input already has them: if every well-formed entry's second
underscore token is one of the eleven codes and the input identifiers are
pairwise distinct, then every key of the returned mapping is a valid code
and `image_name` stays unique across the returned record set. -/
theorem C9_conditional_invariant (items : List Item)
    (pairs : List (String × String)) (jp cp : String)
    (h : ∀ it ∈ items, it.image_name ≠ none)
    (hlang : ∀ it ∈ items, wfItem it = true → langOf it ∈ langCodes)
    (huniq : (items.map Item.image_name).Nodup) :
    ∃ ws d, load_data (some items) (some pairs) jp cp = .ok ws d ∧
      (∀ k ∈ keysOf d, k ∈ langCodes) ∧
      ((allItems d).map Item.image_name).Nodup := by
  obtain ⟨ws', d', hok, hperm, hkeys, hwarn⟩ :=
    processItems_spec pairs items [] [] h
  refine ⟨[] ++ ws', d', hok, ?_, ?_⟩
  · intro k hk
    rcases hkeys k hk with hk' | ⟨it, hit, hwf, rfl⟩
    · simp [keysOf] at hk'
    · exact hlang it hit hwf
  · have hmap := hperm.map Item.image_name
    have h2 : ((items.filter wfItem).map (convItem pairs)).map Item.image_name =
        (items.filter wfItem).map Item.image_name := by
      rw [List.map_map]
      apply List.map_congr_left
      intro y _
      exact convItem_image_name pairs y
    have h3 : ((items.filter wfItem).map Item.image_name).Nodup :=
      huniq.sublist ((List.filter_sublist items).map Item.image_name)
    have hmap2 : List.Perm ((allItems d').map Item.image_name)
        ((items.filter wfItem).map Item.image_name) := by
      have : (allItems ([] : List (String × List Item)) ++
          (items.filter wfItem).map (convItem pairs)).map Item.image_name =
          ((items.filter wfItem).map (convItem pairs)).map Item.image_name := by
        simp [allItems]
      rw [this, h2] at hmap
      exact hmap
    exact hmap2.symm.nodup_iff.1 h3

theorem C9_conditional_invariant_witness :
    ∃ ws d, load_data (some [⟨some "x_bn_1", "", "", "", none⟩]) (some [])
        "j" "c" = .ok ws d ∧
      (∀ k ∈ keysOf d, k ∈ langCodes) ∧
      ((allItems d).map Item.image_name).Nodup :=
  C9_conditional_invariant [⟨some "x_bn_1", "", "", "", none⟩] [] "j" "c"
    (by decide) (by decide) (by decide)

/-- C9 counterexample: an input whose language token `"zz"` is not one of
the eleven codes and whose identifier is duplicated loads without any
validation: the returned mapping carries the invalid key `"zz"` and the
duplicate `image_name` twice. -/
theorem C9_no_validation_counterexample :
    load_data (some [⟨some "x_zz_1", "", "", "", none⟩,
        ⟨some "x_zz_1", "", "", "", none⟩]) (some []) "j" "c" =
      .ok [] [("zz", [⟨some "x_zz_1", "", "", "", some "N/A"⟩,
        ⟨some "x_zz_1", "", "", "", some "N/A"⟩])] ∧
    "zz" ∉ langCodes ∧
    ¬ ((allItems [("zz", [(⟨some "x_zz_1", "", "", "", some "N/A"⟩ : Item),
        ⟨some "x_zz_1", "", "", "", some "N/A"⟩])]).map Item.image_name).Nodup := by
  refine ⟨by decide, by decide, by decide⟩

/-- C10: if any entry of the primary source lacks the `image_name` key
entirely, the whole load fails with the uncaught `KeyError` — the
`except IndexError` handler does not catch it — regardless of the other
entries and of the CSV contents. -/
theorem C10_keyerror (items : List Item) (pairs : List (String × String))
    (jp cp : String) (h : ∃ it ∈ items, it.image_name = none) :
    load_data (some items) (some pairs) jp cp = .raised "KeyError: 'image_name'" :=
  processItems_raised pairs items [] [] h

theorem C10_keyerror_witness :
    load_data (some [⟨some "x_bn_1", "", "", "", none⟩,
        ⟨none, "", "", "", none⟩]) (some []) "j" "c" =
      .raised "KeyError: 'image_name'" :=
  C10_keyerror _ [] "j" "c" ⟨⟨none, "", "", "", none⟩, by decide, rfl⟩

end OcrViz
